import Mathlib

set_option maxHeartbeats 1000000

/-!
Verification of the coin-selection core (src/wallet/coinselection.cpp):
a shallow embedding of SelectCoinsBnB, KnapsackSolver and their helper
loops, followed by theorems about the embedded definitions.
-/

/-- A selectable UTXO as the two algorithms use it.  The source reads the
spendable amount from txout.nValue (for BnB callers this holds the
effective value, per the comment at the head of SelectCoinsBnB), plus the
fee and long_term_fee fields.  The outpoint field is the identity:
modelled from the spec, because the definition of CInputCoin lives in the
header coinselection.h which is not among the sources; the spec requires
candidates to be distinguishable by the caller (for example by outpoint),
so set membership separates records with distinct outpoints. -/
structure CInputCoin where
  nValue : Int
  fee : Int
  long_term_fee : Int
  outpoint : Nat
deriving DecidableEq, Repr

/-- Modelled from the spec: MAX_MONEY is the external domain constant that
bounds all monetary quantities (its definition is in a header outside the
sources); best_waste is initialised to it.  The wallet value is 21 million
coins in base units. -/
def MAX_MONEY : Int := 2100000000000000

/-- Modelled from the spec: MIN_CHANGE is the external configuration
constant for the smallest economically reasonable change output (defined
outside the sources); the wallet uses one hundredth of a coin. -/
def MIN_CHANGE : Int := 1000000

/-- The descending comparator at the top of coinselection.cpp orders coins
by strictly greater nValue.  std::sort leaves the relative order of tied
elements unspecified; we fix the stable insertion-sort refinement of that
comparator. -/
def sortDescending (l : List CInputCoin) : List CInputCoin :=
  List.insertionSort (fun a b => b.nValue ≤ a.nValue) l

/-- Sum of the nValue fields of a coin list, as accumulated by the
lookahead initialisation loop. -/
def sumValues (l : List CInputCoin) : Int := (l.map (fun c => c.nValue)).sum

/-- C++ exceptions and aborts the translated code can raise:
std::vector::at out of range, the assert in the advance branch, and the
artificial fuel bound of the translated loop (proved unreachable). -/
inductive CErr where
  | atFail
  | assertFail
  | fuelExhausted
deriving DecidableEq, Repr

instance [DecidableEq ε] [DecidableEq α] : DecidableEq (Except ε α)
  | .ok a, .ok b => if h : a = b then .isTrue (by rw [h]) else .isFalse (by simp [h])
  | .ok _, .error _ => .isFalse (by simp)
  | .error _, .ok _ => .isFalse (by simp)
  | .error a, .error b => if h : a = b then .isTrue (by rw [h]) else .isFalse (by simp [h])

/-- Bounds-checked element access at a C++ int index, as std::vector::at
performs it (none models the std::out_of_range throw). -/
def igetOpt (l : List α) (i : Int) : Option α :=
  if i < 0 then none else l.get? i.toNat

/-- The read-only inputs of one SelectCoinsBnB invocation, with utxo_pool
already sorted (the pool is not modified after the sort on line 63). -/
structure BnBCtx where
  utxo_pool : List CInputCoin
  target_value : Int
  cost_of_change : Int
deriving DecidableEq, Repr

/-- The mutable locals of the SelectCoinsBnB search loop, lines 55 to 74.
The selection entries pair the inclusion bit with the
exclusion-branch-traversed bit, exactly as in the source. -/
structure BnBState where
  depth : Int
  remaining_tries : Int
  selection : List (Bool × Bool)
  lookahead : Int
  value_ret : Int
  curr_waste : Int
  best_selection : List (Bool × Bool)
  best_waste : Int
deriving DecidableEq, Repr

/-- Outcome of one iteration of the search loop: continue looping with a
new state, or exit the loop (break, or done set by the walk) carrying the
state the post-loop code sees. -/
inductive BnBIterOut where
  | exit (s : BnBState)
  | cont (s : BnBState)
deriving DecidableEq, Repr

/-- The inner backtracking walk, lines 121 to 133: starting at index d,
walk backwards over entries whose second branch is already traversed,
resetting each to (false, false) and restoring its value to the
lookahead; return the stopping index, or none when the walk steps past
position zero (the done flag in the source). -/
def walkLoop (pool : List CInputCoin) :
    Nat → List (Bool × Bool) → Int → Except CErr (Option Nat × List (Bool × Bool) × Int)
  | 0, sel, la =>
    match sel.get? 0 with
    | none => .error .atFail
    | some p =>
      if p.2 then
        match pool.get? 0 with
        | none => .error .atFail
        | some c => .ok (none, sel.set 0 (false, false), la + c.nValue)
      else .ok (some 0, sel, la)
  | d + 1, sel, la =>
    match sel.get? (d + 1) with
    | none => .error .atFail
    | some p =>
      if p.2 then
        match pool.get? (d + 1) with
        | none => .error .atFail
        | some c => walkLoop pool d (sel.set (d + 1) (false, false)) (la + c.nValue)
      else .ok (some (d + 1), sel, la)

/-- One backtracking step, lines 116 to 145: step back one position, run
the walk, then either exit the loop (walked past the first utxo) or flip
the found included utxo onto its exclusion branch.  The end-of-iteration
decrement of remaining_tries on line 146 runs on both paths and is
applied here. -/
def bnbBacktrack (ctx : BnBCtx) (s : BnBState) : Except CErr BnBIterOut :=
  if s.depth - 1 < 0 then .error .atFail
  else
    match walkLoop ctx.utxo_pool (s.depth - 1).toNat s.selection s.lookahead with
    | .error e => .error e
    | .ok (none, sel, la) =>
        .ok (.exit { s with depth := -1, selection := sel, lookahead := la,
                            remaining_tries := s.remaining_tries - 1 })
    | .ok (some d, sel, la) =>
        match ctx.utxo_pool.get? d with
        | none => .error .atFail
        | some c =>
            .ok (.cont { s with depth := (d : Int) + 1,
                                selection := sel.set d (false, true),
                                lookahead := la,
                                value_ret := s.value_ret - c.nValue,
                                curr_waste := s.curr_waste - (c.fee - c.long_term_fee),
                                remaining_tries := s.remaining_tries - 1 })

/-- One iteration of the depth-first search loop, lines 77 to 147, with
the guard chain in source order: try budget, overshoot, waste pruning,
in-range recording, leaf, unreachable lookahead, and otherwise the
inclusion-first advance. -/
def bnbIter (ctx : BnBCtx) (s : BnBState) : Except CErr BnBIterOut :=
  if s.remaining_tries ≤ 0 then .ok (.exit s)
  else if s.value_ret > ctx.target_value + ctx.cost_of_change then bnbBacktrack ctx s
  else if s.curr_waste > s.best_waste then bnbBacktrack ctx s
  else if s.value_ret ≥ ctx.target_value then
    bnbBacktrack ctx
      (if s.curr_waste + (s.value_ret - ctx.target_value) ≤ s.best_waste then
        { s with best_selection := s.selection,
                 best_waste := s.curr_waste + (s.value_ret - ctx.target_value) }
       else s)
  else if s.depth ≥ (ctx.utxo_pool.length : Int) then bnbBacktrack ctx s
  else if s.value_ret + s.lookahead < ctx.target_value then
    if s.depth = 0 then .ok (.exit s) else bnbBacktrack ctx s
  else
    match igetOpt ctx.utxo_pool s.depth with
    | none => .error .atFail
    | some c =>
      if c.nValue < 0 then .error .assertFail
      else
        match igetOpt s.selection s.depth with
        | none => .error .atFail
        | some p =>
          .ok (.cont { s with
            lookahead := s.lookahead - c.nValue,
            curr_waste := s.curr_waste + (c.fee - c.long_term_fee),
            selection := s.selection.set s.depth.toNat (true, p.2),
            value_ret := s.value_ret + c.nValue,
            depth := s.depth + 1,
            remaining_tries := s.remaining_tries - 1 })

/-- The search loop.  The source loop needs no fuel: remaining_tries is a
strict variant, so fuel 100001 always suffices (proved below); the fuel
parameter only makes the recursion structural. -/
def bnbLoop (ctx : BnBCtx) : Nat → BnBState → Except CErr (Option BnBState)
  | 0, _ => .ok none
  | fuel + 1, s =>
    match bnbIter ctx s with
    | .error e => .error e
    | .ok (.exit t) => .ok (some t)
    | .ok (.cont t) => bnbLoop ctx fuel t

/-- A std::set insert: no effect when an equal element is already present.
Modelled from the spec: the comparison operator of CInputCoin is in the
missing header; the spec states candidates are compared as values and
distinguishable by identity, so equality of the whole record decides
membership. -/
def setInsert (out : List CInputCoin) (c : CInputCoin) : List CInputCoin :=
  if c ∈ out then out else out ++ [c]

/-- The output walk, lines 154 to 162: for each set inclusion bit, insert
the coin into the output set, add its fee to fee_ret and its value to
value_ret. -/
def bnbOutput : List (Bool × Bool) → List CInputCoin →
    List CInputCoin → Int → Int → Except CErr (List CInputCoin × Int × Int)
  | [], _, out, v, f => .ok (out, v, f)
  | _ :: _, [], _, _, _ => .error .atFail
  | b :: bs, c :: cs, out, v, f =>
    if b.1 then bnbOutput bs cs (setInsert out c) (v + c.nValue) (f + c.fee)
    else bnbOutput bs cs out v f

/-- The outputs of SelectCoinsBnB: the returned boolean, the two cleared
output parameters, and the in-out fee_ret parameter. -/
structure BnBResult where
  success : Bool
  out_set : List CInputCoin
  value_ret : Int
  fee_ret : Int
deriving DecidableEq, Repr

/-- The loop state right after initialisation, lines 55 to 74, for a
context whose pool is already sorted. -/
def bnbInit (ctx : BnBCtx) : BnBState :=
  { depth := 0
    remaining_tries := 100000
    selection := List.replicate ctx.utxo_pool.length (false, false)
    lookahead := sumValues ctx.utxo_pool
    value_ret := 0
    curr_waste := 0
    best_selection := []
    best_waste := MAX_MONEY }

/-- SelectCoinsBnB, lines 46 to 165.  fee_ret is in-out: the caller's
incoming value is threaded through untouched except for the additions in
the output walk. -/
def SelectCoinsBnB (utxo_pool : List CInputCoin) (target_value cost_of_change : Int)
    (fee_ret : Int) : Except CErr BnBResult :=
  if utxo_pool.isEmpty then .ok ⟨false, [], 0, fee_ret⟩
  else
    match bnbLoop ⟨sortDescending utxo_pool, target_value, cost_of_change⟩ 100001
        (bnbInit ⟨sortDescending utxo_pool, target_value, cost_of_change⟩) with
    | .error e => .error e
    | .ok none => .error .fuelExhausted
    | .ok (some s) =>
      if s.best_selection.isEmpty then .ok ⟨false, [], s.value_ret, fee_ret⟩
      else
        match bnbOutput s.best_selection (sortDescending utxo_pool) [] 0 fee_ret with
        | .error e => .error e
        | .ok (out, v, f) => .ok ⟨true, out, v, f⟩

/-- The state reached after n completed loop iterations when the loop is
still running, and none once the loop has already exited.  This is an
observer of the same iteration function, used to name trace states. -/
def bnbRunN (ctx : BnBCtx) : Nat → BnBState → Except CErr (Option BnBState)
  | 0, s => .ok (some s)
  | n + 1, s =>
    match bnbIter ctx s with
    | .error e => .error e
    | .ok (.exit _) => .ok none
    | .ok (.cont t) => bnbRunN ctx n t

/-- Sum of a coin attribute over the positions whose inclusion bit is
set, walking a pool and a selection vector in lockstep. -/
def selMap (f : CInputCoin → Int) : List CInputCoin → List (Bool × Bool) → Int
  | c :: cs, b :: bs => (if b.1 then f c else 0) + selMap f cs bs
  | _, _ => 0

/-- Sum of the nValue fields over the selected positions. -/
def selSum : List CInputCoin → List (Bool × Bool) → Int := selMap (fun c => c.nValue)

/-- Sum of the fee fields over the selected positions. -/
def selFeeSum : List CInputCoin → List (Bool × Bool) → Int := selMap (fun c => c.fee)

/-- Sum of fee minus long_term_fee over the selected positions: the
per-input part of the waste metric. -/
def selWasteSum : List CInputCoin → List (Bool × Bool) → Int :=
  selMap (fun c => c.fee - c.long_term_fee)

/-- The coins at the selected positions, in pool order. -/
def selectedCoins : List (Bool × Bool) → List CInputCoin → List CInputCoin
  | b :: bs, c :: cs => (if b.1 then [c] else []) ++ selectedCoins bs cs
  | _, _ => []

/-- The state carried by either iteration outcome. -/
def outState : BnBIterOut → BnBState
  | .exit t => t
  | .cont t => t

/-- The recorded best selection is either still empty or an in-range
selection whose full waste is best_waste. -/
def BnBBest (ctx : BnBCtx) (s : BnBState) : Prop :=
  s.best_selection = [] ∨
    (s.best_selection.length = ctx.utxo_pool.length ∧
     ctx.target_value ≤ selSum ctx.utxo_pool s.best_selection ∧
     selSum ctx.utxo_pool s.best_selection ≤ ctx.target_value + ctx.cost_of_change ∧
     s.best_waste = selWasteSum ctx.utxo_pool s.best_selection +
       (selSum ctx.utxo_pool s.best_selection - ctx.target_value))

/-- The loop invariant of the SelectCoinsBnB search: selection length,
depth bounds, the running sums tracked by value_ret and curr_waste, the
shape facts about the two selection bits (positions at or beyond depth
are untouched, a traversed second branch forces an unset inclusion bit,
and an untraversed position below depth is included), and the recorded
best selection being in range with best_waste equal to its full waste. -/
def BnBInv (ctx : BnBCtx) (s : BnBState) : Prop :=
  s.selection.length = ctx.utxo_pool.length ∧
  0 ≤ s.depth ∧
  s.depth ≤ (ctx.utxo_pool.length : Int) ∧
  s.value_ret = selSum ctx.utxo_pool s.selection ∧
  s.curr_waste = selWasteSum ctx.utxo_pool s.selection ∧
  (∀ (i : Nat) (p : Bool × Bool), s.depth ≤ (i : Int) → s.selection.get? i = some p →
    p = (false, false)) ∧
  (∀ (i : Nat) (p : Bool × Bool), s.selection.get? i = some p → p.2 = true → p.1 = false) ∧
  (∀ (i : Nat) (p : Bool × Bool), (i : Int) < s.depth → s.selection.get? i = some p →
    p.2 = false → p.1 = true) ∧
  BnBBest ctx s

/-- Observer of the in-range recording branch, lines 85 to 92: at a loop
head state where that branch executes, the selection the iteration
compares against the best, together with its full waste (curr_waste plus
the excess over target).  None when the iteration takes another branch. -/
def recordEvent (ctx : BnBCtx) (s : BnBState) : Option (List (Bool × Bool) × Int) :=
  if s.remaining_tries ≤ 0 then none
  else if s.value_ret > ctx.target_value + ctx.cost_of_change then none
  else if s.curr_waste > s.best_waste then none
  else if s.value_ret ≥ ctx.target_value then
    some (s.selection, s.curr_waste + (s.value_ret - ctx.target_value))
  else none

/-- All recording events of a run, in traversal order. -/
def bnbEvents (ctx : BnBCtx) : Nat → BnBState → List (List (Bool × Bool) × Int)
  | 0, _ => []
  | fuel + 1, s =>
    (recordEvent ctx s).toList ++
      match bnbIter ctx s with
      | .ok (.cont t) => bnbEvents ctx fuel t
      | _ => []

/-- The fold the recording branch performs on the best pair: a new event
replaces the best exactly when its waste is less than or equal. -/
def foldRecords (init : List (Bool × Bool) × Int) (evs : List (List (Bool × Bool) × Int)) :
    List (Bool × Bool) × Int :=
  evs.foldl (fun b e => if e.2 ≤ b.2 then e else b) init

/-- Pool of the waste-guard scenario: after sorting, the first entry has
fee minus long_term_fee equal to minus five. -/
def wgPool : List CInputCoin := [⟨12, 0, 5, 0⟩, ⟨12, 3, 0, 1⟩]

def wgCtx : BnBCtx := ⟨sortDescending wgPool, 12, 0⟩

/-- Loop state of the waste-guard scenario after two iterations: the best
selection holds the first coin with waste minus five, and the running
selection is empty with waste zero. -/
def wgState : BnBState :=
  ⟨1, 99998, [(false, true), (false, false)], 12, 0, 0, [(true, false), (false, false)], -5⟩

/-- Loop exit state the waste-pruning backtrack produces from wgState. -/
def wgExit : BnBState :=
  ⟨-1, 99997, [(false, false), (false, false)], 24, 0, 0, [(true, false), (false, false)], -5⟩

/-- Pool of the equivalence-skip scenario: two candidates with identical
nValue and identical fee but distinct outpoints. -/
def eqPool : List CInputCoin := [⟨3, 0, 0, 0⟩, ⟨3, 0, 0, 1⟩]

def eqCtx : BnBCtx := ⟨sortDescending eqPool, 3, 0⟩

/-- Loop state of the equivalence-skip scenario after two iterations: the
first candidate is on its exclusion branch and depth points at its equal
twin. -/
def eqState : BnBState :=
  ⟨1, 99998, [(false, true), (false, false)], 3, 0, 0, [(true, false), (false, false)], 0⟩

/-- Successor state the advance at eqState produces: the twin is
included, not skipped. -/
def eqNext : BnBState :=
  ⟨2, 99997, [(false, true), (true, false)], 0, 3, 0, [(true, false), (false, false)], 0⟩

/-- State of the eqCtx run after its first iteration, an advance. -/
def eqStep1 : BnBState :=
  ⟨1, 99999, [(true, false), (false, false)], 3, 3, 0, [], MAX_MONEY⟩

/-- Pool of the tie-break scenario: selecting only the first coin and
selecting only the second coin are both in range with equal waste two. -/
def tiePool : List CInputCoin := [⟨5, 0, 0, 0⟩, ⟨4, 1, 0, 1⟩]

def tieCtx : BnBCtx := ⟨sortDescending tiePool, 3, 2⟩

/-- Loop state of the tie-break scenario after two iterations: the first
in-range selection found, containing only the first coin, is recorded
with best waste two. -/
def tieRun2 : BnBState :=
  ⟨1, 99998, [(false, true), (false, false)], 4, 0, 0, [(true, false), (false, false)], 2⟩

/-- Final loop state of the tie-break scenario: the recorded best now
selects only the second coin, still with best waste two. -/
def tieFinal : BnBState :=
  ⟨-1, 99995, [(false, false), (false, false)], 9, 0, 0, [(false, true), (true, false)], 2⟩

/-- The outputs of KnapsackSolver: the returned boolean and the two
output parameters cleared at entry. -/
structure KResult where
  success : Bool
  out_set : List CInputCoin
  value_ret : Int
deriving DecidableEq, Repr

/-- The single pass over the shuffled pool, lines 225 to 242: an exact
match returns immediately; coins below target plus MIN_CHANGE accumulate
into vValue and nTotalLower; among the remaining coins the smallest is
kept as coinLowestLarger. -/
def knapScan (nTargetValue : Int) :
    List CInputCoin → List CInputCoin → Int → Option CInputCoin →
      Sum CInputCoin (List CInputCoin × Int × Option CInputCoin)
  | [], vValue, nTotalLower, cll => .inr (vValue, nTotalLower, cll)
  | coin :: rest, vValue, nTotalLower, cll =>
    if coin.nValue = nTargetValue then .inl coin
    else if coin.nValue < nTargetValue + MIN_CHANGE then
      knapScan nTargetValue rest (vValue ++ [coin]) (nTotalLower + coin.nValue) cll
    else
      match cll with
      | none => knapScan nTargetValue rest vValue nTotalLower (some coin)
      | some l =>
        if coin.nValue < l.nValue then
          knapScan nTargetValue rest vValue nTotalLower (some coin)
        else knapScan nTargetValue rest vValue nTotalLower (some l)

/-- The mutable locals of one ApproximateBestSubset repetition, with k
the index of the next randbool draw in the explicit random stream. -/
structure AbsState where
  vfIncluded : List Bool
  nTotal : Int
  fReachedTarget : Bool
  vfBest : List Bool
  nBest : Int
  k : Nat
deriving DecidableEq, Repr

/-- One pass of the subset approximator's inner loop, lines 184 to 208:
walk the candidates by index; in pass zero draw one random boolean per
candidate, in pass one include each candidate not yet included; when the
running total reaches the target, record the mask if it improves on
nBest, then reverse the last inclusion and keep scanning. -/
def absScan (pass0 : Bool) (rng : Nat → Bool) (nTargetValue : Int) :
    List CInputCoin → Nat → AbsState → AbsState
  | [], _, st => st
  | c :: rest, i, st =>
    if (if pass0 then rng st.k else !(st.vfIncluded.getD i false)) then
      if st.nTotal + c.nValue ≥ nTargetValue then
        absScan pass0 rng nTargetValue rest (i + 1)
          { vfIncluded := ((st.vfIncluded.set i true).set i false)
            nTotal := st.nTotal + c.nValue - c.nValue
            fReachedTarget := true
            vfBest := if st.nTotal + c.nValue < st.nBest then st.vfIncluded.set i true
                      else st.vfBest
            nBest := if st.nTotal + c.nValue < st.nBest then st.nTotal + c.nValue
                     else st.nBest
            k := if pass0 then st.k + 1 else st.k }
      else
        absScan pass0 rng nTargetValue rest (i + 1)
          { st with vfIncluded := st.vfIncluded.set i true
                    nTotal := st.nTotal + c.nValue
                    k := if pass0 then st.k + 1 else st.k }
    else
      absScan pass0 rng nTargetValue rest (i + 1)
        { st with k := if pass0 then st.k + 1 else st.k }

/-- The outer repetition loop of ApproximateBestSubset, lines 177 to
210: up to the given number of repetitions, stopping early once nBest
equals the target; each repetition resets the included mask and runs
pass zero, then pass one if the target was not reached. -/
def absReps (rng : Nat → Bool) (nTargetValue : Int) (vValue : List CInputCoin) :
    Nat → List Bool → Int → Nat → List Bool × Int × Nat
  | 0, vfBest, nBest, k => (vfBest, nBest, k)
  | m + 1, vfBest, nBest, k =>
    if nBest = nTargetValue then (vfBest, nBest, k)
    else
      match absScan true rng nTargetValue vValue 0
          ⟨List.replicate vValue.length false, 0, false, vfBest, nBest, k⟩ with
      | st1 =>
        if st1.fReachedTarget then absReps rng nTargetValue vValue m st1.vfBest st1.nBest st1.k
        else
          match absScan false rng nTargetValue vValue 0 st1 with
          | st2 => absReps rng nTargetValue vValue m st2.vfBest st2.nBest st2.k

/-- ApproximateBestSubset, lines 167 to 211: vfBest starts all-included
with nBest = nTotalLower, then the repetitions of the randomised double
pass run. -/
def ApproximateBestSubset (vValue : List CInputCoin) (nTotalLower nTargetValue : Int)
    (rng : Nat → Bool) (k : Nat) (iterations : Nat := 1000) : List Bool × Int × Nat :=
  absReps rng nTargetValue vValue iterations (List.replicate vValue.length true) nTotalLower k

/-- Insertion loop over a whole coin list, accumulating gross value, as
in lines 246 to 250. -/
def insertAll : List CInputCoin → List CInputCoin → Int → List CInputCoin × Int
  | [], out, v => (out, v)
  | c :: rest, out, v => insertAll rest (setInsert out c) (v + c.nValue)

/-- The masked insertion loop of the vfBest branch, lines 281 to 286. -/
def insertMasked : List CInputCoin → List Bool → List CInputCoin → Int → List CInputCoin × Int
  | c :: cs, b :: bs, out, v =>
    if b then insertMasked cs bs (setInsert out c) (v + c.nValue)
    else insertMasked cs bs out v
  | _, _, out, v => (out, v)

/-- The pair of ApproximateBestSubset calls of KnapsackSolver, lines 268
to 270: the second run, aiming at nTargetValue plus MIN_CHANGE, happens
only when the first missed the exact target and the low pool can afford
the larger goal; otherwise the first run's outputs (vfBest, nBest and
the advanced random-stream index) stand. -/
def knapApprox (vValue : List CInputCoin) (nTotalLower nTargetValue : Int)
    (rng : Nat → Bool) : List Bool × Int × Nat :=
  if (ApproximateBestSubset (sortDescending vValue) nTotalLower nTargetValue rng 0 1000).2.1 ≠
       nTargetValue ∧
     nTotalLower ≥ nTargetValue + MIN_CHANGE then
    ApproximateBestSubset (sortDescending vValue) nTotalLower (nTargetValue + MIN_CHANGE) rng
      (ApproximateBestSubset (sortDescending vValue) nTotalLower nTargetValue rng 0 1000).2.2 1000
  else ApproximateBestSubset (sortDescending vValue) nTotalLower nTargetValue rng 0 1000

/-- KnapsackSolver, lines 213 to 300.  The random_shuffle of the pool is
modelled by taking the already shuffled pool as the input list, so every
theorem below holds for every shuffle outcome; the FastRandomContext
stream of the subset approximator is the explicit rng argument.  The
logging block, lines 288 to 296, has no effect on the outputs and is
omitted. -/
def KnapsackSolver (utxo_pool : List CInputCoin) (nTargetValue : Int)
    (rng : Nat → Bool) : KResult :=
  match knapScan nTargetValue utxo_pool [] 0 none with
  | .inl coin => ⟨true, setInsert [] coin, coin.nValue⟩
  | .inr (vValue, nTotalLower, coinLowestLarger) =>
    if nTotalLower = nTargetValue then
      ⟨true, (insertAll vValue [] 0).1, (insertAll vValue [] 0).2⟩
    else if nTotalLower < nTargetValue then
      coinLowestLarger.elim ⟨false, [], 0⟩ (fun c => ⟨true, setInsert [] c, c.nValue⟩)
    else
      coinLowestLarger.elim
        ⟨true,
          (insertMasked (sortDescending vValue)
            (knapApprox vValue nTotalLower nTargetValue rng).1 [] 0).1,
          (insertMasked (sortDescending vValue)
            (knapApprox vValue nTotalLower nTargetValue rng).1 [] 0).2⟩
        (fun c =>
          if ((knapApprox vValue nTotalLower nTargetValue rng).2.1 ≠ nTargetValue ∧
              (knapApprox vValue nTotalLower nTargetValue rng).2.1 < nTargetValue + MIN_CHANGE) ∨
             c.nValue ≤ (knapApprox vValue nTotalLower nTargetValue rng).2.1
          then ⟨true, setInsert [] c, c.nValue⟩
          else ⟨true,
            (insertMasked (sortDescending vValue)
              (knapApprox vValue nTotalLower nTargetValue rng).1 [] 0).1,
            (insertMasked (sortDescending vValue)
              (knapApprox vValue nTotalLower nTargetValue rng).1 [] 0).2⟩)

/-- Sum of the nValue fields over the positions set in a boolean mask,
walking coins and mask in lockstep. -/
def maskSum : List CInputCoin → List Bool → Int
  | c :: cs, b :: bs => (if b then c.nValue else 0) + maskSum cs bs
  | _, _ => 0

/-- The coins at the positions set in a boolean mask, in list order. -/
def maskedCoins : List CInputCoin → List Bool → List CInputCoin
  | c :: cs, b :: bs => (if b then [c] else []) ++ maskedCoins cs bs
  | _, _ => []

/-- C2 (counterexample): in the wgCtx run, the state reached after two
loop iterations has curr_waste greater than best_waste while the first
pool entry has fee minus long_term_fee equal to minus five, no other
backtrack trigger applies, and the iteration nevertheless takes the
waste-based backtrack (the source, line 83, has no guard on the first
pool entry).  This refutes the claim that curr_waste exceeding best_waste
alone never causes a backtrack when the first entry's fee minus
long_term_fee is not positive. -/
theorem bnb_waste_guard_counterexample :
    bnbRunN wgCtx 2 (bnbInit wgCtx) = Except.ok (some wgState) ∧
    ¬ wgState.remaining_tries ≤ 0 ∧
    ¬ wgState.value_ret > wgCtx.target_value + wgCtx.cost_of_change ∧
    wgState.curr_waste > wgState.best_waste ∧
    igetOpt wgCtx.utxo_pool 0 = some ⟨12, 0, 5, 0⟩ ∧
    (12 : Int) - 0 - 5 ≤ 12 ∧
    ¬ wgState.value_ret ≥ wgCtx.target_value ∧
    ¬ wgState.depth ≥ (wgCtx.utxo_pool.length : Int) ∧
    ¬ wgState.value_ret + wgState.lookahead < wgCtx.target_value ∧
    bnbIter wgCtx wgState = bnbBacktrack wgCtx wgState ∧
    bnbBacktrack wgCtx wgState = Except.ok (.exit wgExit) := by
  decide

/-- C2 (amended): the waste-based backtrack is taken whenever curr_waste
exceeds best_waste and the two guards ahead of it in the chain pass (the
try budget is not exhausted and the selected value is not over range);
the source places no condition on the first pool entry's fee minus
long_term_fee. -/
theorem bnb_waste_backtrack_unconditional (ctx : BnBCtx) (s : BnBState)
    (h1 : ¬ s.remaining_tries ≤ 0)
    (h2 : ¬ s.value_ret > ctx.target_value + ctx.cost_of_change)
    (h3 : s.curr_waste > s.best_waste) :
    bnbIter ctx s = bnbBacktrack ctx s := by
  unfold bnbIter
  rw [if_neg h1, if_neg h2, if_pos h3]

/-- Witness for the amended C2 theorem at the concrete waste-guard state,
whose first pool entry has non-positive fee minus long_term_fee. -/
theorem bnb_waste_backtrack_unconditional_witness :
    bnbIter wgCtx wgState = bnbBacktrack wgCtx wgState :=
  bnb_waste_backtrack_unconditional wgCtx wgState (by decide) (by decide) (by decide)

/-- C3 (counterexample): in the eqCtx run, the state reached after two
loop iterations is an advance state at depth one whose previous candidate
is excluded and whose current candidate has the same nValue and the same
fee, yet the iteration includes the current candidate (selection bit set,
value added) instead of skipping the inclusion branch: the source, lines
101 to 113, contains no equivalence-skip test. -/
theorem bnb_equivalence_skip_counterexample :
    bnbRunN eqCtx 2 (bnbInit eqCtx) = Except.ok (some eqState) ∧
    eqState.depth = 1 ∧
    igetOpt eqState.selection 0 = some (false, true) ∧
    igetOpt eqCtx.utxo_pool 0 = some ⟨3, 0, 0, 0⟩ ∧
    igetOpt eqCtx.utxo_pool 1 = some ⟨3, 0, 0, 1⟩ ∧
    bnbIter eqCtx eqState = Except.ok (.cont eqNext) ∧
    igetOpt eqNext.selection 1 = some (true, false) ∧
    eqNext.value_ret = eqState.value_ret + 3 ∧
    eqNext.depth = eqState.depth + 1 := by
  decide

/-- C3 (amended): the searcher has no equivalence-skip optimisation: at
every advance step (all backtrack triggers false, candidate in bounds,
non-negative value) it takes the inclusion branch unconditionally,
setting the inclusion bit, adding the candidate's value to value_ret,
subtracting it from the lookahead and incrementing depth; this happens
even when the previous candidate is excluded and has the same nValue and
fee as the current one. -/
theorem bnb_advance_always_includes (ctx : BnBCtx) (s : BnBState)
    (c : CInputCoin) (p : Bool × Bool)
    (h1 : ¬ s.remaining_tries ≤ 0)
    (h2 : ¬ s.value_ret > ctx.target_value + ctx.cost_of_change)
    (h3 : ¬ s.curr_waste > s.best_waste)
    (h4 : ¬ s.value_ret ≥ ctx.target_value)
    (h5 : ¬ s.depth ≥ (ctx.utxo_pool.length : Int))
    (h6 : ¬ s.value_ret + s.lookahead < ctx.target_value)
    (hc : igetOpt ctx.utxo_pool s.depth = some c)
    (hv : ¬ c.nValue < 0)
    (hp : igetOpt s.selection s.depth = some p) :
    bnbIter ctx s = Except.ok (.cont { s with
      lookahead := s.lookahead - c.nValue,
      curr_waste := s.curr_waste + (c.fee - c.long_term_fee),
      selection := s.selection.set s.depth.toNat (true, p.2),
      value_ret := s.value_ret + c.nValue,
      depth := s.depth + 1,
      remaining_tries := s.remaining_tries - 1 }) := by
  unfold bnbIter
  simp only [if_neg h1, if_neg h2, if_neg h3, if_neg h4, if_neg h5, if_neg h6, hc,
    if_neg hv, hp]

/-- Witness for the amended C3 theorem at the concrete equivalence-skip
state, where the previous candidate is excluded with identical nValue and
fee. -/
theorem bnb_advance_always_includes_witness :
    bnbIter eqCtx eqState = Except.ok (.cont { eqState with
      lookahead := eqState.lookahead - 3,
      curr_waste := eqState.curr_waste + (0 - 0),
      selection := eqState.selection.set 1 (true, false),
      value_ret := eqState.value_ret + 3,
      depth := eqState.depth + 1,
      remaining_tries := eqState.remaining_tries - 1 }) :=
  bnb_advance_always_includes eqCtx eqState ⟨3, 0, 0, 1⟩ (false, false)
    (by decide) (by decide) (by decide) (by decide) (by decide) (by decide)
    (by decide) (by decide) (by decide)

/-- C4 (counterexample): in the tieCtx run, the first in-range selection
found is the one containing only the first coin, recorded after two
iterations with best waste two; the final loop state holds a different
selection, containing only the second coin, with the same best waste two
(both full wastes equal two), and SelectCoinsBnB returns that later
selection.  The line 87 comparison uses less-or-equal, so a later
selection with waste equal to best_waste replaces the recorded best,
refuting the first-found tie-break. -/
theorem bnb_tie_break_counterexample :
    bnbRunN tieCtx 2 (bnbInit tieCtx) = Except.ok (some tieRun2) ∧
    tieRun2.best_selection = [(true, false), (false, false)] ∧
    tieRun2.best_waste = 2 ∧
    bnbLoop tieCtx 100001 (bnbInit tieCtx) = Except.ok (some tieFinal) ∧
    tieFinal.best_selection = [(false, true), (true, false)] ∧
    tieFinal.best_waste = 2 ∧
    tieFinal.best_selection ≠ tieRun2.best_selection ∧
    selWasteSum tieCtx.utxo_pool tieRun2.best_selection +
      (selSum tieCtx.utxo_pool tieRun2.best_selection - tieCtx.target_value) = 2 ∧
    selWasteSum tieCtx.utxo_pool tieFinal.best_selection +
      (selSum tieCtx.utxo_pool tieFinal.best_selection - tieCtx.target_value) = 2 ∧
    SelectCoinsBnB tiePool 3 2 0 = Except.ok ⟨true, [⟨4, 1, 0, 1⟩], 4, 1⟩ := by
  decide

theorem bnbBacktrack_ok_tries (ctx : BnBCtx) (s : BnBState) (o : BnBIterOut)
    (h : bnbBacktrack ctx s = Except.ok o) :
    (outState o).remaining_tries = s.remaining_tries - 1 := by
  unfold bnbBacktrack at h
  split at h
  · exact absurd h (by simp)
  · split at h
    · exact absurd h (by simp)
    · injection h with h
      subst h
      rfl
    · split at h
      · exact absurd h (by simp)
      · injection h with h
        subst h
        rfl

theorem bnbIter_cont_tries (ctx : BnBCtx) (s : BnBState) (t : BnBState)
    (h : bnbIter ctx s = Except.ok (.cont t)) :
    t.remaining_tries = s.remaining_tries - 1 ∧ 0 < s.remaining_tries := by
  unfold bnbIter at h
  split at h
  · exact absurd h (by simp)
  next h1 =>
    refine ⟨?_, by omega⟩
    split at h
    · exact bnbBacktrack_ok_tries ctx s (.cont t) h
    · split at h
      · exact bnbBacktrack_ok_tries ctx s (.cont t) h
      · split at h
        · have hb := bnbBacktrack_ok_tries ctx _ (.cont t) h
          revert hb
          split <;> exact fun hb => hb
        · split at h
          · exact bnbBacktrack_ok_tries ctx s (.cont t) h
          · split at h
            · split at h
              · exact absurd h (by simp)
              · exact bnbBacktrack_ok_tries ctx s (.cont t) h
            · split at h
              · exact absurd h (by simp)
              · split at h
                · exact absurd h (by simp)
                · split at h
                  · exact absurd h (by simp)
                  · injection h with h
                    injection h with h
                    subst h
                    rfl

theorem bnbLoop_succ (ctx : BnBCtx) (n : Nat) (s : BnBState) :
    bnbLoop ctx (n + 1) s =
      match bnbIter ctx s with
      | .error e => .error e
      | .ok (.exit t) => .ok (some t)
      | .ok (.cont t) => bnbLoop ctx n t := rfl

theorem bnbLoop_ne_none (ctx : BnBCtx) :
    ∀ (fuel : Nat) (s : BnBState), s.remaining_tries < (fuel : Int) → 0 < fuel →
      bnbLoop ctx fuel s ≠ Except.ok none := by
  intro fuel
  induction fuel with
  | zero => intro s _ h0; omega
  | succ n ih =>
    intro s h _
    rw [bnbLoop_succ]
    cases hit : bnbIter ctx s with
    | error e => simp
    | ok o =>
      cases o with
      | exit t => simp
      | cont t =>
        obtain ⟨hdec, hpos⟩ := bnbIter_cont_tries ctx s t hit
        push_cast at h
        exact ih t (by omega) (by omega)

/-- C9: SelectCoinsBnB always terminates within the try budget: running
the search loop from the initial state with fuel 100001 never exhausts
the fuel (remaining_tries, initialised to TOTAL_TRIES = 100000, is a
strict variant); every advance or backtrack iteration consumes exactly
one try and is possible only with budget left; and the loop exits as soon
as the budget is exhausted (or earlier, when the tree is traversed). -/
theorem bnb_terminates_within_budget (ctx : BnBCtx) :
    bnbLoop ctx 100001 (bnbInit ctx) ≠ Except.ok none ∧
    (∀ s : BnBState, s.remaining_tries ≤ 0 → bnbIter ctx s = Except.ok (.exit s)) ∧
    (∀ s t : BnBState, bnbIter ctx s = Except.ok (.cont t) →
      t.remaining_tries = s.remaining_tries - 1 ∧ 0 < s.remaining_tries) := by
  refine ⟨?_, ?_, fun s t h => bnbIter_cont_tries ctx s t h⟩
  · exact bnbLoop_ne_none ctx 100001 (bnbInit ctx) (by norm_num [bnbInit]) (by norm_num)
  · intro s h
    unfold bnbIter
    rw [if_pos h]

/-- Witness for the termination theorem on the concrete eqCtx run: its
loop terminates within the budget, a state with zero tries exits, and
the first iteration of the run consumes exactly one try. -/
theorem bnb_terminates_within_budget_witness :
    bnbLoop eqCtx 100001 (bnbInit eqCtx) ≠ Except.ok none ∧
    bnbIter eqCtx { bnbInit eqCtx with remaining_tries := 0 } =
      Except.ok (.exit { bnbInit eqCtx with remaining_tries := 0 }) ∧
    (eqStep1.remaining_tries = (bnbInit eqCtx).remaining_tries - 1 ∧
      0 < (bnbInit eqCtx).remaining_tries) :=
  ⟨(bnb_terminates_within_budget eqCtx).1,
   (bnb_terminates_within_budget eqCtx).2.1 _ (by decide),
   (bnb_terminates_within_budget eqCtx).2.2 (bnbInit eqCtx) eqStep1 (by decide)⟩

theorem sumValues_sortDescending (l : List CInputCoin) :
    sumValues (sortDescending l) = sumValues l := by
  unfold sumValues sortDescending
  exact List.Perm.sum_eq (List.Perm.map _ (List.perm_insertionSort _ l))

theorem length_sortDescending (l : List CInputCoin) :
    (sortDescending l).length = l.length :=
  List.length_insertionSort _ l

theorem bnbIter_exit_unreachable (ctx : BnBCtx) (s : BnBState)
    (h1 : ¬ s.remaining_tries ≤ 0)
    (h2 : ¬ s.value_ret > ctx.target_value + ctx.cost_of_change)
    (h3 : ¬ s.curr_waste > s.best_waste)
    (h4 : ¬ s.value_ret ≥ ctx.target_value)
    (h5 : ¬ s.depth ≥ (ctx.utxo_pool.length : Int))
    (h6 : s.value_ret + s.lookahead < ctx.target_value)
    (h7 : s.depth = 0) :
    bnbIter ctx s = Except.ok (.exit s) := by
  unfold bnbIter
  rw [if_neg h1, if_neg h2, if_neg h3, if_neg h4, if_neg h5, if_pos h6, if_pos h7]

/-- C8: SelectCoinsBnB fails with cleared outputs on an empty pool, and
whenever the sum of all effective values in the pool is strictly below
the target it fails without exploring the tree: the very first loop
iteration already exits via the lookahead test at depth zero, leaving the
initial state (all 100000 tries unconsumed) as the loop result. -/
theorem bnb_trivial_failures :
    (∀ t c f : Int, SelectCoinsBnB [] t c f = Except.ok ⟨false, [], 0, f⟩) ∧
    (∀ (pool : List CInputCoin) (t c f : Int), pool ≠ [] → 0 < t → 0 ≤ c →
      sumValues pool < t →
      bnbIter ⟨sortDescending pool, t, c⟩ (bnbInit ⟨sortDescending pool, t, c⟩) =
        Except.ok (.exit (bnbInit ⟨sortDescending pool, t, c⟩)) ∧
      bnbLoop ⟨sortDescending pool, t, c⟩ 100001 (bnbInit ⟨sortDescending pool, t, c⟩) =
        Except.ok (some (bnbInit ⟨sortDescending pool, t, c⟩)) ∧
      SelectCoinsBnB pool t c f = Except.ok ⟨false, [], 0, f⟩) := by
  constructor
  · intro t c f
    rfl
  · intro pool t c f hne ht hc hsum
    have hlenpos : 0 < pool.length := List.length_pos.mpr hne
    have hiter : bnbIter ⟨sortDescending pool, t, c⟩ (bnbInit ⟨sortDescending pool, t, c⟩) =
        Except.ok (.exit (bnbInit ⟨sortDescending pool, t, c⟩)) := by
      refine bnbIter_exit_unreachable _ _ ?_ ?_ ?_ ?_ ?_ ?_ rfl
      · norm_num [bnbInit]
      · show ¬ (0 : Int) > t + c
        omega
      · show ¬ (0 : Int) > MAX_MONEY
        norm_num [MAX_MONEY]
      · show ¬ (0 : Int) ≥ t
        omega
      · show ¬ (0 : Int) ≥ ((sortDescending pool).length : Int)
        rw [length_sortDescending]
        omega
      · show (0 : Int) + sumValues (sortDescending pool) < t
        rw [sumValues_sortDescending]
        omega
    have hloop : bnbLoop ⟨sortDescending pool, t, c⟩ 100001
        (bnbInit ⟨sortDescending pool, t, c⟩) =
        Except.ok (some (bnbInit ⟨sortDescending pool, t, c⟩)) := by
      rw [show (100001 : Nat) = 100000 + 1 from rfl, bnbLoop_succ, hiter]
    refine ⟨hiter, hloop, ?_⟩
    have hni : pool.isEmpty = false := by
      cases pool with
      | nil => exact absurd rfl hne
      | cons a l => rfl
    unfold SelectCoinsBnB
    rw [hni]
    simp only [Bool.false_eq_true, if_false, hloop]
    rfl

/-- Witness for the trivial-failure theorem: the empty pool fails with
cleared outputs, and a one-coin pool of value two with target five fails
on its first iteration with zero tries consumed. -/
theorem bnb_trivial_failures_witness :
    SelectCoinsBnB [] 5 0 3 = Except.ok ⟨false, [], 0, 3⟩ ∧
    (bnbIter ⟨sortDescending [⟨2, 0, 0, 0⟩], 5, 0⟩ (bnbInit ⟨sortDescending [⟨2, 0, 0, 0⟩], 5, 0⟩) =
      Except.ok (.exit (bnbInit ⟨sortDescending [⟨2, 0, 0, 0⟩], 5, 0⟩)) ∧
     bnbLoop ⟨sortDescending [⟨2, 0, 0, 0⟩], 5, 0⟩ 100001
        (bnbInit ⟨sortDescending [⟨2, 0, 0, 0⟩], 5, 0⟩) =
      Except.ok (some (bnbInit ⟨sortDescending [⟨2, 0, 0, 0⟩], 5, 0⟩)) ∧
     SelectCoinsBnB [⟨2, 0, 0, 0⟩] 5 0 7 = Except.ok ⟨false, [], 0, 7⟩) :=
  ⟨bnb_trivial_failures.1 5 0 3,
   bnb_trivial_failures.2 [⟨2, 0, 0, 0⟩] 5 0 7 (by decide) (by decide) (by decide) (by decide)⟩

theorem selMap_nil_right (f : CInputCoin → Int) (cs : List CInputCoin) :
    selMap f cs [] = 0 := by
  cases cs <;> rfl

theorem bnbOutput_sums (bs : List (Bool × Bool)) :
    ∀ (cs : List CInputCoin) (out0 : List CInputCoin) (v0 f0 : Int)
      (out : List CInputCoin) (v f : Int),
      bnbOutput bs cs out0 v0 f0 = Except.ok (out, v, f) →
      v = v0 + selSum cs bs ∧ f = f0 + selFeeSum cs bs := by
  induction bs with
  | nil =>
    intro cs out0 v0 f0 out v f h
    unfold bnbOutput at h
    injection h with h
    injection h with h1 h
    injection h with h2 h3
    subst h1
    subst h2
    subst h3
    simp [selSum, selFeeSum, selMap_nil_right]
  | cons b bs ih =>
    intro cs out0 v0 f0 out v f h
    cases cs with
    | nil => exact absurd h (by simp [bnbOutput])
    | cons c cs =>
      unfold bnbOutput at h
      by_cases hb : b.1 = true
      · rw [if_pos hb] at h
        obtain ⟨hv, hf⟩ := ih cs (setInsert out0 c) (v0 + c.nValue) (f0 + c.fee) out v f h
        constructor
        · rw [hv]
          simp only [selSum, selMap, hb, if_true]
          ring
        · rw [hf]
          simp only [selFeeSum, selMap, hb, if_true]
          ring
      · rw [if_neg hb] at h
        obtain ⟨hv, hf⟩ := ih cs out0 v0 f0 out v f h
        constructor
        · rw [hv]
          simp [selSum, selMap, hb]
        · rw [hf]
          simp [selFeeSum, selMap, hb]

/-- C10: SelectCoinsBnB never clears or initialises fee_ret: every
failing call returns fee_ret exactly equal to its incoming value, and
every successful call returns the incoming value plus the sum of the fee
fields over the selected positions of the recorded best selection,
unlike out_set and value_ret which are reset at entry. -/
theorem bnb_fee_ret_passthrough (pool : List CInputCoin) (t c f : Int) (r : BnBResult)
    (h : SelectCoinsBnB pool t c f = Except.ok r) :
    (r.success = false → r.fee_ret = f) ∧
    (r.success = true → ∃ s : BnBState,
      bnbLoop ⟨sortDescending pool, t, c⟩ 100001 (bnbInit ⟨sortDescending pool, t, c⟩) =
        Except.ok (some s) ∧
      r.fee_ret = f + selFeeSum (sortDescending pool) s.best_selection) := by
  unfold SelectCoinsBnB at h
  split at h
  · injection h with h
    subst h
    exact ⟨fun _ => rfl, fun hs => by simp at hs⟩
  · split at h
    · exact absurd h (by simp)
    · exact absurd h (by simp)
    next s hloop =>
      split at h
      · injection h with h
        subst h
        exact ⟨fun _ => rfl, fun hs => by simp at hs⟩
      · split at h
        · exact absurd h (by simp)
        next out v fr hout =>
          injection h with h
          subst h
          refine ⟨fun hs => by simp at hs, fun _ => ⟨s, hloop, ?_⟩⟩
          exact (bnbOutput_sums s.best_selection (sortDescending pool) [] 0 f out v fr hout).2

/-- Witness for the fee_ret frame theorem on the concrete tiePool run:
the success case adds the selected fee of one to the incoming seven. -/
theorem bnb_fee_ret_passthrough_witness :
    ((⟨true, [⟨4, 1, 0, 1⟩], 4, 8⟩ : BnBResult).success = false →
      (⟨true, [⟨4, 1, 0, 1⟩], 4, 8⟩ : BnBResult).fee_ret = 7) ∧
    ((⟨true, [⟨4, 1, 0, 1⟩], 4, 8⟩ : BnBResult).success = true → ∃ s : BnBState,
      bnbLoop ⟨sortDescending tiePool, 3, 2⟩ 100001 (bnbInit ⟨sortDescending tiePool, 3, 2⟩) =
        Except.ok (some s) ∧
      (⟨true, [⟨4, 1, 0, 1⟩], 4, 8⟩ : BnBResult).fee_ret =
        7 + selFeeSum (sortDescending tiePool) s.best_selection) :=
  bnb_fee_ret_passthrough tiePool 3 2 7 ⟨true, [⟨4, 1, 0, 1⟩], 4, 8⟩ (by decide)

/-- C1 (code bug): when the search loop exits with no recorded best
selection, the failure return on line 151 passes the loop's residual
value_ret through unchanged instead of clearing it; only out_set is
empty by construction.  A pool that exhausts the try budget mid-descent
leaves a non-zero residual, so a failing call can report a non-zero
value_ret, contradicting the specified clearing of outputs on failure. -/
theorem bnb_failure_returns_residual_value (pool : List CInputCoin) (t c f : Int)
    (s : BnBState) (hne : pool.isEmpty = false)
    (hloop : bnbLoop ⟨sortDescending pool, t, c⟩ 100001 (bnbInit ⟨sortDescending pool, t, c⟩) =
      Except.ok (some s))
    (hbest : s.best_selection = []) :
    SelectCoinsBnB pool t c f = Except.ok ⟨false, [], s.value_ret, f⟩ := by
  unfold SelectCoinsBnB
  rw [hne]
  simp only [Bool.false_eq_true, if_false, hloop]
  rw [if_pos (by rw [hbest]; rfl)]

/-- Witness for the residual-value theorem at a concrete failing call. -/
theorem bnb_failure_returns_residual_value_witness :
    SelectCoinsBnB [⟨2, 0, 0, 0⟩] 5 0 9 =
      Except.ok ⟨false, [], (bnbInit ⟨sortDescending [⟨2, 0, 0, 0⟩], 5, 0⟩).value_ret, 9⟩ :=
  bnb_failure_returns_residual_value [⟨2, 0, 0, 0⟩] 5 0 9 _ (by decide) (by decide) (by decide)

theorem selMap_set (f : CInputCoin → Int) :
    ∀ (cs : List CInputCoin) (bs : List (Bool × Bool)) (i : Nat) (c : CInputCoin)
      (q p : Bool × Bool),
      cs.get? i = some c → bs.get? i = some q →
      selMap f cs (bs.set i p) =
        selMap f cs bs + (if p.1 then f c else 0) - (if q.1 then f c else 0) := by
  intro cs
  induction cs with
  | nil => intro bs i c q p hc _; simp at hc
  | cons c0 cs ih =>
    intro bs i c q p hc hq
    cases bs with
    | nil => simp at hq
    | cons b bs =>
      cases i with
      | zero =>
        simp only [List.get?] at hc hq
        injection hc with hc
        injection hq with hq
        subst hc
        subst hq
        simp only [List.set, selMap]
        ring
      | succ i =>
        simp only [List.get?] at hc hq
        simp only [List.set, selMap]
        rw [ih bs i c q p hc hq]
        ring

theorem selMap_congr_first (f : CInputCoin → Int) :
    ∀ (cs : List CInputCoin) (bs1 bs2 : List (Bool × Bool)),
      bs1.length = bs2.length →
      (∀ i : Nat, (bs1.get? i).map Prod.fst = (bs2.get? i).map Prod.fst) →
      selMap f cs bs1 = selMap f cs bs2 := by
  intro cs
  induction cs with
  | nil =>
    intro bs1 bs2 _ _
    cases bs1 <;> cases bs2 <;> rfl
  | cons c cs ih =>
    intro bs1 bs2 hlen hfst
    cases bs1 with
    | nil =>
      cases bs2 with
      | nil => rfl
      | cons b2 t2 => simp at hlen
    | cons b1 t1 =>
      cases bs2 with
      | nil => simp at hlen
      | cons b2 t2 =>
        have h0 := hfst 0
        simp only [List.get?, Option.map_some'] at h0
        injection h0 with h0
        simp only [selMap, h0]
        rw [ih t1 t2 (by simpa using hlen) (fun i => by simpa using hfst (i + 1))]

theorem selMap_replicate (f : CInputCoin → Int) :
    ∀ (cs : List CInputCoin) (n : Nat), selMap f cs (List.replicate n (false, false)) = 0 := by
  intro cs
  induction cs with
  | nil => intro n; cases n <;> rfl
  | cons c cs ih =>
    intro n
    cases n with
    | zero => rfl
    | succ n => simp [List.replicate_succ, selMap, ih n]

theorem walkLoop_zero (pool : List CInputCoin) (sel : List (Bool × Bool)) (la : Int) :
    walkLoop pool 0 sel la =
      (match sel.get? 0 with
       | none => .error .atFail
       | some p =>
         if p.2 then
           match pool.get? 0 with
           | none => .error .atFail
           | some c => .ok (none, sel.set 0 (false, false), la + c.nValue)
         else .ok (some 0, sel, la)) := rfl

theorem walkLoop_succ (pool : List CInputCoin) (d : Nat) (sel : List (Bool × Bool)) (la : Int) :
    walkLoop pool (d + 1) sel la =
      (match sel.get? (d + 1) with
       | none => .error .atFail
       | some p =>
         if p.2 then
           match pool.get? (d + 1) with
           | none => .error .atFail
           | some c => walkLoop pool d (sel.set (d + 1) (false, false)) (la + c.nValue)
         else .ok (some (d + 1), sel, la)) := rfl

theorem walkLoop_spec (pool : List CInputCoin) :
    ∀ (d : Nat) (sel : List (Bool × Bool)) (la : Int) (r : Option Nat)
      (sel2 : List (Bool × Bool)) (la2 : Int),
      walkLoop pool d sel la = Except.ok (r, sel2, la2) →
      (∀ (i : Nat) (p : Bool × Bool), sel.get? i = some p → p.2 = true → p.1 = false) →
      sel2.length = sel.length ∧
      (∀ i : Nat, d < i → sel2.get? i = sel.get? i) ∧
      (∀ i : Nat, (sel2.get? i).map Prod.fst = (sel.get? i).map Prod.fst) ∧
      (match r with
       | none => ∀ i : Nat, i ≤ d → sel2.get? i = some (false, false)
       | some e =>
          e ≤ d ∧ (∀ i : Nat, i ≤ e → sel2.get? i = sel.get? i) ∧
          (∀ i : Nat, e < i → i ≤ d → sel2.get? i = some (false, false)) ∧
          (∃ p : Bool × Bool, sel.get? e = some p ∧ p.2 = false)) := by
  intro d
  induction d with
  | zero =>
    intro sel la r sel2 la2 h hD
    rw [walkLoop_zero] at h
    split at h
    · exact absurd h (by simp)
    next p hs =>
      have hlt : 0 < sel.length := by
        obtain ⟨hw, _⟩ := List.get?_eq_some.mp hs
        exact hw
      split at h
      next hp2 =>
        split at h
        · exact absurd h (by simp)
        next c hpool =>
          injection h with h
          rw [Prod.mk.injEq, Prod.mk.injEq] at h
          obtain ⟨h1, h2, h3⟩ := h
          subst h1
          subst h2
          subst h3
          refine ⟨List.length_set .., ?_, ?_, ?_⟩
          · intro i hi
            exact List.get?_set_ne _ _ (by omega)
          · intro i
            cases i with
            | zero =>
              rw [List.get?_set_eq_of_lt _ hlt, hs]
              simp [hD 0 p hs hp2]
            | succ i =>
              rw [List.get?_set_ne _ _ (by omega)]
          · intro i hi
            have hi0 : i = 0 := by omega
            subst hi0
            exact List.get?_set_eq_of_lt _ hlt
      next hp2 =>
        injection h with h
        rw [Prod.mk.injEq, Prod.mk.injEq] at h
        obtain ⟨h1, h2, h3⟩ := h
        subst h1
        subst h2
        subst h3
        refine ⟨rfl, fun i _ => rfl, fun i => rfl, ?_, fun i h1 => rfl, ?_, ?_⟩
        · omega
        · intro i hlo hhi
          omega
        · exact ⟨p, hs, by simpa using hp2⟩
  | succ d ih =>
    intro sel la r sel2 la2 h hD
    rw [walkLoop_succ] at h
    split at h
    · exact absurd h (by simp)
    next p hs =>
      have hlt : d + 1 < sel.length := by
        obtain ⟨hw, _⟩ := List.get?_eq_some.mp hs
        exact hw
      split at h
      next hp2 =>
        split at h
        · exact absurd h (by simp)
        next c hpool =>
          have hD1 : ∀ (i : Nat) (q : Bool × Bool),
              (sel.set (d + 1) (false, false)).get? i = some q → q.2 = true → q.1 = false := by
            intro i q hq hq2
            by_cases hid : i = d + 1
            · subst hid
              rw [List.get?_set_eq_of_lt _ hlt] at hq
              injection hq with hq
              subst hq
              simp at hq2
            · rw [List.get?_set_ne _ _ (by omega)] at hq
              exact hD i q hq hq2
          obtain ⟨ihlen, ihabove, ihfst, ihr⟩ :=
            ih (sel.set (d + 1) (false, false)) _ r sel2 la2 h hD1
          have habove1 : ∀ i : Nat, d + 1 < i → sel2.get? i = sel.get? i := by
            intro i hi
            rw [ihabove i (by omega), List.get?_set_ne _ _ (by omega)]
          have hat1 : sel2.get? (d + 1) = some (false, false) := by
            rw [ihabove (d + 1) (by omega), List.get?_set_eq_of_lt _ hlt]
          refine ⟨by rw [ihlen, List.length_set], habove1, ?_, ?_⟩
          · intro i
            by_cases hid : i = d + 1
            · subst hid
              rw [hat1, hs]
              simp [hD (d + 1) p hs hp2]
            · rw [ihfst i, List.get?_set_ne _ _ (by omega)]
          · cases r with
            | none =>
              intro i hi
              rcases Nat.lt_or_ge i (d + 1) with hlo | hhi
              · exact ihr i (by omega)
              · have : i = d + 1 := by omega
                subst this
                exact hat1
            | some e =>
              obtain ⟨hed, huntouched, hreset, p0, hp0, hp02⟩ := ihr
              have hp0s : sel.get? e = some p0 := by
                rw [← hp0, List.get?_set_ne _ _ (by omega)]
              refine ⟨by omega, ?_, ?_, ⟨p0, hp0s, hp02⟩⟩
              · intro i hi
                rw [huntouched i hi, List.get?_set_ne _ _ (by omega)]
              · intro i hlo hhi
                rcases Nat.lt_or_ge i (d + 1) with hlo2 | hhi2
                · exact hreset i hlo (by omega)
                · have : i = d + 1 := by omega
                  subst this
                  exact hat1
      next hp2 =>
        injection h with h
        rw [Prod.mk.injEq, Prod.mk.injEq] at h
        obtain ⟨h1, h2, h3⟩ := h
        subst h1
        subst h2
        subst h3
        refine ⟨rfl, fun i _ => rfl, fun i => rfl, ?_, fun i h1 => rfl, ?_, ?_⟩
        · omega
        · intro i hlo hhi
          omega
        · exact ⟨p, hs, by simpa using hp2⟩

theorem record_state_inv (ctx : BnBCtx) (s : BnBState) (hInv : BnBInv ctx s)
    (h2 : ¬ s.value_ret > ctx.target_value + ctx.cost_of_change)
    (h4 : s.value_ret ≥ ctx.target_value) :
    BnBInv ctx { s with best_selection := s.selection,
                        best_waste := s.curr_waste + (s.value_ret - ctx.target_value) } := by
  obtain ⟨hlen, hd0, hdn, hval, hcw, hE, hD, hF, hB⟩ := hInv
  refine ⟨hlen, hd0, hdn, hval, hcw, hE, hD, hF, ?_⟩
  right
  refine ⟨hlen, ?_, ?_, ?_⟩
  · show ctx.target_value ≤ selSum ctx.utxo_pool s.selection
    rw [← hval]
    exact h4
  · show selSum ctx.utxo_pool s.selection ≤ ctx.target_value + ctx.cost_of_change
    rw [← hval]
    omega
  · show s.curr_waste + (s.value_ret - ctx.target_value) =
      selWasteSum ctx.utxo_pool s.selection +
        (selSum ctx.utxo_pool s.selection - ctx.target_value)
    rw [hcw, hval]

theorem advance_state_inv (ctx : BnBCtx) (s : BnBState) (c : CInputCoin) (p : Bool × Bool)
    (hInv : BnBInv ctx s)
    (h5 : ¬ s.depth ≥ (ctx.utxo_pool.length : Int))
    (hc : igetOpt ctx.utxo_pool s.depth = some c)
    (hp : igetOpt s.selection s.depth = some p) :
    BnBInv ctx { s with
      lookahead := s.lookahead - c.nValue,
      curr_waste := s.curr_waste + (c.fee - c.long_term_fee),
      selection := s.selection.set s.depth.toNat (true, p.2),
      value_ret := s.value_ret + c.nValue,
      depth := s.depth + 1,
      remaining_tries := s.remaining_tries - 1 } := by
  obtain ⟨hlen, hd0, hdn, hval, hcw, hE, hD, hF, hB⟩ := hInv
  unfold igetOpt at hc hp
  rw [if_neg (by omega)] at hc hp
  have hdN : (s.depth.toNat : Int) = s.depth := Int.toNat_of_nonneg hd0
  have hpff : p = (false, false) := hE s.depth.toNat p (by omega) hp
  refine ⟨?_, ?_, ?_, ?_, ?_, ?_, ?_, ?_, hB⟩
  · show (s.selection.set s.depth.toNat (true, p.2)).length = ctx.utxo_pool.length
    rw [List.length_set, hlen]
  · show (0 : Int) ≤ s.depth + 1
    omega
  · show s.depth + 1 ≤ (ctx.utxo_pool.length : Int)
    omega
  · show s.value_ret + c.nValue =
      selSum ctx.utxo_pool (s.selection.set s.depth.toNat (true, p.2))
    rw [selSum, selMap_set _ ctx.utxo_pool s.selection s.depth.toNat c p (true, p.2) hc hp]
    rw [hpff]
    simp only [if_true, Bool.false_eq_true, if_false]
    rw [hval, selSum]
    ring
  · show s.curr_waste + (c.fee - c.long_term_fee) =
      selWasteSum ctx.utxo_pool (s.selection.set s.depth.toNat (true, p.2))
    rw [selWasteSum, selMap_set _ ctx.utxo_pool s.selection s.depth.toNat c p (true, p.2) hc hp]
    rw [hpff]
    simp only [if_true, Bool.false_eq_true, if_false]
    rw [hcw, selWasteSum]
    ring
  · intro i q hi hq
    have hi2 : s.depth + 1 ≤ (i : Int) := hi
    rw [List.get?_set_ne _ _ (by omega)] at hq
    exact hE i q (by omega) hq
  · intro i q hq hq2
    by_cases hid : i = s.depth.toNat
    · subst hid
      have hqlt : s.depth.toNat < s.selection.length := by
        obtain ⟨hw, _⟩ := List.get?_eq_some.mp hp
        exact hw
      rw [List.get?_set_eq_of_lt _ hqlt] at hq
      injection hq with hq
      subst hq
      rw [hpff] at hq2
      simp at hq2
    · rw [List.get?_set_ne _ _ (by omega)] at hq
      exact hD i q hq hq2
  · intro i q hi hq hq2
    have hi2 : (i : Int) < s.depth + 1 := hi
    by_cases hid : i = s.depth.toNat
    · subst hid
      have hqlt : s.depth.toNat < s.selection.length := by
        obtain ⟨hw, _⟩ := List.get?_eq_some.mp hp
        exact hw
      rw [List.get?_set_eq_of_lt _ hqlt] at hq
      injection hq with hq
      subst hq
      rfl
    · rw [List.get?_set_ne _ _ (by omega)] at hq
      exact hF i q (by omega) hq hq2

theorem bnbBacktrack_preserves (ctx : BnBCtx) (u : BnBState) (hInv : BnBInv ctx u) :
    (∀ t : BnBState, bnbBacktrack ctx u = Except.ok (.cont t) → BnBInv ctx t) ∧
    (∀ t : BnBState, bnbBacktrack ctx u = Except.ok (.exit t) → BnBBest ctx t) := by
  obtain ⟨hlen, hd0, hdn, hval, hcw, hE, hD, hF, hB⟩ := hInv
  constructor
  · intro t h
    unfold bnbBacktrack at h
    split at h
    · exact absurd h (by simp)
    next hdpos =>
      have hddN : ((u.depth - 1).toNat : Int) = u.depth - 1 := Int.toNat_of_nonneg (by omega)
      split at h
      · exact absurd h (by simp)
      · exact absurd h (by simp)
      next d selw la hwalk =>
        split at h
        · exact absurd h (by simp)
        next c hcget =>
          injection h with h
          injection h with h
          subst h
          obtain ⟨wlen, wabove, wfst, wr⟩ :=
            walkLoop_spec ctx.utxo_pool (u.depth - 1).toNat u.selection u.lookahead
              (some d) selw la hwalk hD
          obtain ⟨hed, huntouched, hreset, p0, hp0, hp02⟩ := wr
          have hp01 : p0.1 = true := hF d p0 (by omega) hp0 hp02
          have hselwd : selw.get? d = some p0 := by
            rw [huntouched d (le_refl d)]
            exact hp0
          have hdlt : d < selw.length := by
            obtain ⟨hw, _⟩ := List.get?_eq_some.mp hselwd
            exact hw
          refine ⟨?_, ?_, ?_, ?_, ?_, ?_, ?_, ?_, hB⟩
          · show (selw.set d (false, true)).length = ctx.utxo_pool.length
            rw [List.length_set, wlen, hlen]
          · show (0 : Int) ≤ (d : Int) + 1
            omega
          · show (d : Int) + 1 ≤ (ctx.utxo_pool.length : Int)
            omega
          · show u.value_ret - c.nValue = selSum ctx.utxo_pool (selw.set d (false, true))
            rw [selSum, selMap_set _ ctx.utxo_pool selw d c p0 (false, true) hcget hselwd]
            have hcon : selMap (fun x => x.nValue) ctx.utxo_pool selw =
                selMap (fun x => x.nValue) ctx.utxo_pool u.selection :=
              selMap_congr_first _ ctx.utxo_pool selw u.selection wlen wfst
            rw [hcon, hp01]
            simp only [Bool.false_eq_true, if_false, if_true]
            rw [hval, selSum]
            ring
          · show u.curr_waste - (c.fee - c.long_term_fee) =
              selWasteSum ctx.utxo_pool (selw.set d (false, true))
            rw [selWasteSum, selMap_set _ ctx.utxo_pool selw d c p0 (false, true) hcget hselwd]
            have hcon : selMap (fun x => x.fee - x.long_term_fee) ctx.utxo_pool selw =
                selMap (fun x => x.fee - x.long_term_fee) ctx.utxo_pool u.selection :=
              selMap_congr_first _ ctx.utxo_pool selw u.selection wlen wfst
            rw [hcon, hp01]
            simp only [Bool.false_eq_true, if_false, if_true]
            rw [hcw, selWasteSum]
            ring
          · intro i q hi hq
            have hi2 : (d : Int) + 1 ≤ (i : Int) := hi
            rw [List.get?_set_ne _ _ (by omega)] at hq
            rcases Nat.lt_or_ge ((u.depth - 1).toNat) i with hgt | hle
            · rw [wabove i hgt] at hq
              exact hE i q (by omega) hq
            · rw [hreset i (by omega) hle] at hq
              injection hq with hq
              exact hq.symm
          · intro i q hq hq2
            by_cases hid : i = d
            · subst hid
              rw [List.get?_set_eq_of_lt _ hdlt] at hq
              injection hq with hq
              subst hq
              rfl
            · rw [List.get?_set_ne _ _ (by omega)] at hq
              rcases Nat.lt_or_ge ((u.depth - 1).toNat) i with hgt | hle
              · rw [wabove i hgt] at hq
                exact hD i q hq hq2
              · rcases Nat.lt_or_ge d i with hgt2 | hle2
                · rw [hreset i hgt2 hle] at hq
                  injection hq with hq
                  subst hq
                  simp at hq2
                · rw [huntouched i (by omega)] at hq
                  exact hD i q hq hq2
          · intro i q hi hq hq2
            have hi2 : ((i : Nat) : Int) < (d : Int) + 1 := hi
            by_cases hid : i = d
            · subst hid
              rw [List.get?_set_eq_of_lt _ hdlt] at hq
              injection hq with hq
              subst hq
              simp at hq2
            · rw [List.get?_set_ne _ _ (by omega)] at hq
              rw [huntouched i (by omega)] at hq
              exact hF i q (by omega) hq hq2
  · intro t h
    unfold bnbBacktrack at h
    split at h
    · exact absurd h (by simp)
    next hdpos =>
      split at h
      · exact absurd h (by simp)
      · injection h with h
        injection h with h
        subst h
        exact hB
      next d selw la hwalk =>
        split at h
        · exact absurd h (by simp)
        · exact absurd h (by simp)

theorem bnbIter_cont_preserves (ctx : BnBCtx) (s : BnBState) (t : BnBState)
    (hInv : BnBInv ctx s) (h : bnbIter ctx s = Except.ok (.cont t)) : BnBInv ctx t := by
  unfold bnbIter at h
  split at h
  · exact absurd h (by simp)
  next h1 =>
    split at h
    next h2 => exact (bnbBacktrack_preserves ctx s hInv).1 t h
    next h2 =>
      split at h
      next h3 => exact (bnbBacktrack_preserves ctx s hInv).1 t h
      next h3 =>
        split at h
        next h4 =>
          split at h
          next h5 =>
            exact (bnbBacktrack_preserves ctx _ (record_state_inv ctx s hInv h2 h4)).1 t h
          next h5 => exact (bnbBacktrack_preserves ctx s hInv).1 t h
        next h4 =>
          split at h
          next h5 => exact (bnbBacktrack_preserves ctx s hInv).1 t h
          next h5 =>
            split at h
            next h6 =>
              split at h
              · exact absurd h (by simp)
              · exact (bnbBacktrack_preserves ctx s hInv).1 t h
            next h6 =>
              split at h
              · exact absurd h (by simp)
              next c hc =>
                split at h
                next hcv => exact absurd h (by simp)
                next hcv =>
                  split at h
                  · exact absurd h (by simp)
                  next p hp =>
                    injection h with h
                    injection h with h
                    subst h
                    exact advance_state_inv ctx s c p hInv h5 hc hp

theorem bnbIter_exit_best (ctx : BnBCtx) (s : BnBState) (t : BnBState)
    (hInv : BnBInv ctx s) (h : bnbIter ctx s = Except.ok (.exit t)) : BnBBest ctx t := by
  unfold bnbIter at h
  split at h
  · injection h with h
    injection h with h
    subst h
    exact hInv.2.2.2.2.2.2.2.2
  next h1 =>
    split at h
    next h2 => exact (bnbBacktrack_preserves ctx s hInv).2 t h
    next h2 =>
      split at h
      next h3 => exact (bnbBacktrack_preserves ctx s hInv).2 t h
      next h3 =>
        split at h
        next h4 =>
          split at h
          next h5 =>
            exact (bnbBacktrack_preserves ctx _ (record_state_inv ctx s hInv h2 h4)).2 t h
          next h5 => exact (bnbBacktrack_preserves ctx s hInv).2 t h
        next h4 =>
          split at h
          next h5 => exact (bnbBacktrack_preserves ctx s hInv).2 t h
          next h5 =>
            split at h
            next h6 =>
              split at h
              · injection h with h
                injection h with h
                subst h
                exact hInv.2.2.2.2.2.2.2.2
              · exact (bnbBacktrack_preserves ctx s hInv).2 t h
            next h6 =>
              split at h
              · exact absurd h (by simp)
              next c hc =>
                split at h
                next hcv => exact absurd h (by simp)
                next hcv =>
                  split at h
                  · exact absurd h (by simp)
                  next p hp => exact absurd h (by simp)

theorem bnbInit_inv (ctx : BnBCtx) : BnBInv ctx (bnbInit ctx) := by
  refine ⟨?_, ?_, ?_, ?_, ?_, ?_, ?_, ?_, ?_⟩
  · show (List.replicate ctx.utxo_pool.length (false, false)).length = ctx.utxo_pool.length
    exact List.length_replicate ..
  · show (0 : Int) ≤ 0
    omega
  · show (0 : Int) ≤ (ctx.utxo_pool.length : Int)
    omega
  · show (0 : Int) = selSum ctx.utxo_pool (List.replicate ctx.utxo_pool.length (false, false))
    exact (selMap_replicate _ ctx.utxo_pool ctx.utxo_pool.length).symm
  · show (0 : Int) = selWasteSum ctx.utxo_pool (List.replicate ctx.utxo_pool.length (false, false))
    exact (selMap_replicate _ ctx.utxo_pool ctx.utxo_pool.length).symm
  · intro i p _ hp
    exact List.eq_of_mem_replicate (List.get?_mem hp)
  · intro i p hp hp2
    have := List.eq_of_mem_replicate (List.get?_mem hp)
    subst this
    rfl
  · intro i p hi hp hp2
    have hi2 : ((i : Nat) : Int) < 0 := hi
    omega
  · exact Or.inl rfl

theorem bnbLoop_best (ctx : BnBCtx) :
    ∀ (fuel : Nat) (s t : BnBState), BnBInv ctx s →
      bnbLoop ctx fuel s = Except.ok (some t) → BnBBest ctx t := by
  intro fuel
  induction fuel with
  | zero =>
    intro s t _ h
    exact absurd h (by simp [bnbLoop])
  | succ n ih =>
    intro s t hInv h
    rw [bnbLoop_succ] at h
    cases hit : bnbIter ctx s with
    | error e => rw [hit] at h; exact absurd h (by simp)
    | ok o =>
      rw [hit] at h
      cases o with
      | exit u =>
        injection h with h
        injection h with h
        subst h
        exact bnbIter_exit_best ctx s u hInv hit
      | cont u =>
        exact ih u t (bnbIter_cont_preserves ctx s u hInv hit) h

theorem sumValues_cons (c : CInputCoin) (l : List CInputCoin) :
    sumValues (c :: l) = c.nValue + sumValues l := by
  simp [sumValues]

theorem selSum_cons (c : CInputCoin) (cs : List CInputCoin) (b : Bool × Bool)
    (bs : List (Bool × Bool)) :
    selSum (c :: cs) (b :: bs) = (if b.1 then c.nValue else 0) + selSum cs bs := rfl

theorem sumValues_selectedCoins (bs : List (Bool × Bool)) :
    ∀ cs : List CInputCoin, sumValues (selectedCoins bs cs) = selSum cs bs := by
  induction bs with
  | nil => intro cs; cases cs <;> rfl
  | cons b bs ih =>
    intro cs
    cases cs with
    | nil => rfl
    | cons c cs =>
      rw [selSum_cons]
      by_cases hb : b.1 = true
      · have hsel : selectedCoins (b :: bs) (c :: cs) = c :: selectedCoins bs cs := by
          simp [selectedCoins, hb]
        rw [hsel, sumValues_cons, ih cs, hb, if_pos rfl]
      · have hsel : selectedCoins (b :: bs) (c :: cs) = selectedCoins bs cs := by
          simp [selectedCoins, hb]
        rw [hsel, ih cs, if_neg hb]
        omega

theorem selectedCoins_sublist (bs : List (Bool × Bool)) :
    ∀ cs : List CInputCoin, (selectedCoins bs cs).Sublist cs := by
  induction bs with
  | nil => intro cs; cases cs <;> simp [selectedCoins]
  | cons b bs ih =>
    intro cs
    cases cs with
    | nil => simp [selectedCoins]
    | cons c cs =>
      by_cases hb : b.1 = true
      · simpa [selectedCoins, hb] using (ih cs).cons₂ c
      · simpa [selectedCoins, hb] using (ih cs).cons c

theorem bnbOutput_out (bs : List (Bool × Bool)) :
    ∀ (cs : List CInputCoin) (out0 : List CInputCoin) (v0 f0 : Int)
      (out : List CInputCoin) (v f : Int),
      bnbOutput bs cs out0 v0 f0 = Except.ok (out, v, f) →
      (selectedCoins bs cs).Nodup →
      (∀ x ∈ selectedCoins bs cs, x ∉ out0) →
      out = out0 ++ selectedCoins bs cs := by
  induction bs with
  | nil =>
    intro cs out0 v0 f0 out v f h _ _
    unfold bnbOutput at h
    injection h with h
    injection h with h1 h
    subst h1
    cases cs <;> simp [selectedCoins]
  | cons b bs ih =>
    intro cs out0 v0 f0 out v f h hnd hdis
    cases cs with
    | nil => exact absurd h (by simp [bnbOutput])
    | cons c cs =>
      unfold bnbOutput at h
      by_cases hb : b.1 = true
      · rw [if_pos hb] at h
        have hsel : selectedCoins (b :: bs) (c :: cs) = c :: selectedCoins bs cs := by
          simp [selectedCoins, hb]
        rw [hsel] at hnd hdis
        have hcnot : c ∉ out0 := hdis c (by simp)
        have hins : setInsert out0 c = out0 ++ [c] := by
          unfold setInsert
          rw [if_neg hcnot]
        have hrec := ih cs (setInsert out0 c) (v0 + c.nValue) (f0 + c.fee) out v f h
          (List.Nodup.of_cons hnd)
          (by
            intro x hx
            rw [hins]
            simp only [List.mem_append, List.mem_singleton]
            push_neg
            refine ⟨hdis x (by simp [hx]), fun he => ?_⟩
            subst he
            exact (List.nodup_cons.mp hnd).1 hx)
        rw [hrec, hins, hsel]
        simp [List.append_assoc]
      · rw [if_neg hb] at h
        have hsel : selectedCoins (b :: bs) (c :: cs) = selectedCoins bs cs := by
          simp [selectedCoins, hb]
        rw [hsel] at hnd hdis
        rw [ih cs out0 v0 f0 out v f h hnd hdis, hsel]

theorem nodup_of_pairwise_outpoint (l : List CInputCoin)
    (h : l.Pairwise (fun a b => a.outpoint ≠ b.outpoint)) : l.Nodup :=
  h.imp (fun hab he => hab (congrArg CInputCoin.outpoint he))

theorem nodup_sortDescending (l : List CInputCoin) (h : l.Nodup) :
    (sortDescending l).Nodup :=
  (List.perm_insertionSort _ l).nodup_iff.mpr h

/-- C5: on every successful SelectCoinsBnB call, the sum of the effective
values (the nValue fields, which hold effective values per the function's
header comment) of the candidates in out_set lies in the closed interval
from target_value to target_value plus cost_of_change.  The search
compares against target_value directly: the source has no separate
not_input_fees parameter, so the caller folds fixed fees into
target_value, making it the actual_target of the claim. -/
theorem bnb_success_in_range (pool : List CInputCoin) (t c f : Int) (r : BnBResult)
    (hdist : pool.Pairwise (fun a b => a.outpoint ≠ b.outpoint))
    (h : SelectCoinsBnB pool t c f = Except.ok r) (hs : r.success = true) :
    t ≤ sumValues r.out_set ∧ sumValues r.out_set ≤ t + c := by
  unfold SelectCoinsBnB at h
  split at h
  · injection h with h
    subst h
    simp at hs
  · split at h
    · exact absurd h (by simp)
    · exact absurd h (by simp)
    next s hloop =>
      split at h
      · injection h with h
        subst h
        simp at hs
      next hbest =>
        split at h
        · exact absurd h (by simp)
        next out v fr hout =>
          injection h with h
          subst h
          have hbestprop := bnbLoop_best ⟨sortDescending pool, t, c⟩ 100001
            (bnbInit ⟨sortDescending pool, t, c⟩) s
            (bnbInit_inv ⟨sortDescending pool, t, c⟩) hloop
          rcases hbestprop with hnil | ⟨hblen, hlo, hhi, hwaste⟩
          · rw [hnil] at hbest
            simp at hbest
          · have hnd : (selectedCoins s.best_selection (sortDescending pool)).Nodup :=
              (selectedCoins_sublist s.best_selection (sortDescending pool)).nodup
                (nodup_sortDescending pool (nodup_of_pairwise_outpoint pool hdist))
            have hoeq := bnbOutput_out s.best_selection (sortDescending pool) [] 0 f out v fr
              hout hnd (by intro x _; simp)
            have hsumv : sumValues out = selSum (sortDescending pool) s.best_selection := by
              rw [hoeq, List.nil_append]
              exact sumValues_selectedCoins s.best_selection (sortDescending pool)
            show t ≤ sumValues out ∧ sumValues out ≤ t + c
            rw [hsumv]
            exact ⟨hlo, hhi⟩

/-- Witness for the in-range theorem on the concrete tiePool run, whose
returned out_set sums to four inside the range from three to five. -/
theorem bnb_success_in_range_witness :
    3 ≤ sumValues ((⟨true, [⟨4, 1, 0, 1⟩], 4, 1⟩ : BnBResult).out_set) ∧
    sumValues ((⟨true, [⟨4, 1, 0, 1⟩], 4, 1⟩ : BnBResult).out_set) ≤ 3 + 2 :=
  bnb_success_in_range tiePool 3 2 0 ⟨true, [⟨4, 1, 0, 1⟩], 4, 1⟩ (by decide) (by decide) rfl

theorem bnbEvents_succ (ctx : BnBCtx) (n : Nat) (s : BnBState) :
    bnbEvents ctx (n + 1) s =
      (recordEvent ctx s).toList ++
        match bnbIter ctx s with
        | .ok (.cont t) => bnbEvents ctx n t
        | _ => [] := rfl

theorem foldRecords_append (init : List (Bool × Bool) × Int)
    (evs1 evs2 : List (List (Bool × Bool) × Int)) :
    foldRecords init (evs1 ++ evs2) = foldRecords (foldRecords init evs1) evs2 := by
  simp [foldRecords, List.foldl_append]

theorem bnbBacktrack_best (ctx : BnBCtx) (w : BnBState) (o : BnBIterOut)
    (h : bnbBacktrack ctx w = Except.ok o) :
    (outState o).best_selection = w.best_selection ∧
    (outState o).best_waste = w.best_waste := by
  unfold bnbBacktrack at h
  split at h
  · exact absurd h (by simp)
  · split at h
    · exact absurd h (by simp)
    · injection h with h
      subst h
      exact ⟨rfl, rfl⟩
    · split at h
      · exact absurd h (by simp)
      · injection h with h
        subst h
        exact ⟨rfl, rfl⟩

theorem bnbIter_best_fold (ctx : BnBCtx) (s : BnBState) (o : BnBIterOut)
    (h : bnbIter ctx s = Except.ok o) :
    ((outState o).best_selection, (outState o).best_waste) =
      foldRecords (s.best_selection, s.best_waste) (recordEvent ctx s).toList := by
  unfold bnbIter at h
  split at h
  next h1 =>
    injection h with h
    subst h
    simp [recordEvent, if_pos h1, foldRecords, outState]
  next h1 =>
    split at h
    next h2 =>
      obtain ⟨hbs, hbw⟩ := bnbBacktrack_best ctx s o h
      simp [recordEvent, if_neg h1, if_pos h2, foldRecords, hbs, hbw]
    next h2 =>
      split at h
      next h3 =>
        obtain ⟨hbs, hbw⟩ := bnbBacktrack_best ctx s o h
        simp [recordEvent, if_neg h1, if_neg h2, if_pos h3, foldRecords, hbs, hbw]
      next h3 =>
        split at h
        next h4 =>
          obtain ⟨hbs, hbw⟩ := bnbBacktrack_best ctx _ o h
          simp only [recordEvent, if_neg h1, if_neg h2, if_neg h3, if_pos h4, Option.toList]
          rw [hbs, hbw]
          by_cases h5 : s.curr_waste + (s.value_ret - ctx.target_value) ≤ s.best_waste
          · rw [if_pos h5]
            simp [foldRecords, h5]
          · rw [if_neg h5]
            simp [foldRecords, h5]
        next h4 =>
          split at h
          next h5 =>
            obtain ⟨hbs, hbw⟩ := bnbBacktrack_best ctx s o h
            simp [recordEvent, if_neg h1, if_neg h2, if_neg h3, if_neg h4, foldRecords,
              hbs, hbw]
          next h5 =>
            split at h
            next h6 =>
              split at h
              · injection h with h
                subst h
                simp [recordEvent, if_neg h1, if_neg h2, if_neg h3, if_neg h4, foldRecords,
                  outState]
              · obtain ⟨hbs, hbw⟩ := bnbBacktrack_best ctx s o h
                simp [recordEvent, if_neg h1, if_neg h2, if_neg h3, if_neg h4, foldRecords,
                  hbs, hbw]
            next h6 =>
              split at h
              · exact absurd h (by simp)
              next c hc =>
                split at h
                next hcv => exact absurd h (by simp)
                next hcv =>
                  split at h
                  · exact absurd h (by simp)
                  next p hp =>
                    injection h with h
                    subst h
                    simp [recordEvent, if_neg h1, if_neg h2, if_neg h3, if_neg h4,
                      foldRecords, outState]

theorem bnbLoop_foldRecords (ctx : BnBCtx) :
    ∀ (fuel : Nat) (s t : BnBState),
      bnbLoop ctx fuel s = Except.ok (some t) →
      (t.best_selection, t.best_waste) =
        foldRecords (s.best_selection, s.best_waste) (bnbEvents ctx fuel s) := by
  intro fuel
  induction fuel with
  | zero =>
    intro s t h
    exact absurd h (by simp [bnbLoop])
  | succ n ih =>
    intro s t h
    rw [bnbLoop_succ] at h
    rw [bnbEvents_succ]
    cases hit : bnbIter ctx s with
    | error e => rw [hit] at h; exact absurd h (by simp)
    | ok o =>
      rw [hit] at h
      cases o with
      | exit u =>
        injection h with h
        injection h with h
        subst h
        rw [foldRecords_append, ← bnbIter_best_fold ctx s (.exit u) hit]
        simp [foldRecords, outState]
      | cont u =>
        rw [foldRecords_append, ← bnbIter_best_fold ctx s (.cont u) hit]
        exact ih u t h

theorem foldRecords_spec (evs : List (List (Bool × Bool) × Int)) :
    ∀ init : List (Bool × Bool) × Int,
      (foldRecords init evs = init ∧ ∀ e ∈ evs, init.2 < e.2) ∨
      (∃ (pre : List (List (Bool × Bool) × Int)) (e : List (Bool × Bool) × Int)
         (post : List (List (Bool × Bool) × Int)),
        evs = pre ++ e :: post ∧ foldRecords init evs = e ∧ e.2 ≤ init.2 ∧
        (∀ x ∈ evs, e.2 ≤ x.2) ∧ (∀ x ∈ post, e.2 ≠ x.2)) := by
  induction evs with
  | nil =>
    intro init
    left
    exact ⟨rfl, by simp⟩
  | cons e0 rest ih =>
    intro init
    have hstep : foldRecords init (e0 :: rest) =
        foldRecords (if e0.2 ≤ init.2 then e0 else init) rest := rfl
    by_cases h0 : e0.2 ≤ init.2
    · rcases ih e0 with ⟨hfr, hgt⟩ | ⟨pre, e, post, hsplit, hfr, hle, hmin, hlast⟩
      · right
        refine ⟨[], e0, rest, by simp, ?_, h0, ?_, ?_⟩
        · rw [hstep, if_pos h0, hfr]
        · intro x hx
          rcases List.mem_cons.mp hx with hx | hx
          · subst hx
            exact le_refl _
          · exact le_of_lt (hgt x hx)
        · intro x hx
          exact ne_of_lt (hgt x hx)
      · right
        refine ⟨e0 :: pre, e, post, by rw [hsplit]; rfl, ?_, le_trans hle h0, ?_, hlast⟩
        · rw [hstep, if_pos h0, hfr]
        · intro x hx
          rcases List.mem_cons.mp hx with hx | hx
          · rw [hx]
            exact hle
          · exact hmin x hx
    · rcases ih init with ⟨hfr, hgt⟩ | ⟨pre, e, post, hsplit, hfr, hle, hmin, hlast⟩
      · left
        refine ⟨by rw [hstep, if_neg h0, hfr], ?_⟩
        intro x hx
        rcases List.mem_cons.mp hx with hx | hx
        · subst hx
          omega
        · exact hgt x hx
      · right
        refine ⟨e0 :: pre, e, post, by rw [hsplit]; rfl, ?_, hle, ?_, hlast⟩
        · rw [hstep, if_neg h0, hfr]
        · intro x hx
          rcases List.mem_cons.mp hx with hx | hx
          · subst hx
            omega
          · exact hmin x hx

theorem bnbEvents_inv (ctx : BnBCtx) :
    ∀ (fuel : Nat) (s : BnBState), BnBInv ctx s →
      ∀ e ∈ bnbEvents ctx fuel s,
        e.1.length = ctx.utxo_pool.length ∧
        ctx.target_value ≤ selSum ctx.utxo_pool e.1 ∧
        selSum ctx.utxo_pool e.1 ≤ ctx.target_value + ctx.cost_of_change ∧
        e.2 = selWasteSum ctx.utxo_pool e.1 +
          (selSum ctx.utxo_pool e.1 - ctx.target_value) := by
  intro fuel
  induction fuel with
  | zero =>
    intro s _ e he
    simp [bnbEvents] at he
  | succ n ih =>
    intro s hInv e he
    rw [bnbEvents_succ] at he
    rcases List.mem_append.mp he with he | he
    · obtain ⟨hlen, hd0, hdn, hval, hcw, hE, hD, hF, hB⟩ := hInv
      unfold recordEvent at he
      split at he
      · simp at he
      · split at he
        · simp at he
        next h2 =>
          split at he
          · simp at he
          next h3 =>
            split at he
            next h4 =>
              simp only [Option.toList, List.mem_singleton] at he
              subst he
              refine ⟨hlen, ?_, ?_, ?_⟩
              · rw [← hval]
                exact h4
              · rw [← hval]
                omega
              · rw [hval, hcw]
            next h4 => simp at he
    · revert he
      cases hit : bnbIter ctx s with
      | error er => intro he; simp at he
      | ok o =>
        cases o with
        | exit u => intro he; simp at he
        | cont u =>
          intro he
          exact ih u (bnbIter_cont_preserves ctx s u hInv hit) e he

/-- C4 (amended): SelectCoinsBnB returns the in-range selection with
minimum waste among the in-range selections its search records, and when
several recorded selections have equal minimal waste the returned one is
the last found in the inclusion-first traversal order (the line 87
comparison is less-or-equal, so a later equal-waste selection replaces
the recorded best; the original claim said first-found). -/
theorem bnb_best_waste_min_last_tie (pool : List CInputCoin) (t c f : Int) (r : BnBResult)
    (h : SelectCoinsBnB pool t c f = Except.ok r) (hs : r.success = true) :
    ∃ (s : BnBState) (pre post : List (List (Bool × Bool) × Int))
      (e : List (Bool × Bool) × Int),
      bnbLoop ⟨sortDescending pool, t, c⟩ 100001 (bnbInit ⟨sortDescending pool, t, c⟩) =
        Except.ok (some s) ∧
      bnbEvents ⟨sortDescending pool, t, c⟩ 100001 (bnbInit ⟨sortDescending pool, t, c⟩) =
        pre ++ e :: post ∧
      s.best_selection = e.1 ∧ s.best_waste = e.2 ∧
      (∀ x ∈ bnbEvents ⟨sortDescending pool, t, c⟩ 100001
          (bnbInit ⟨sortDescending pool, t, c⟩), e.2 ≤ x.2) ∧
      (∀ x ∈ post, e.2 ≠ x.2) ∧
      t ≤ selSum (sortDescending pool) e.1 ∧
      selSum (sortDescending pool) e.1 ≤ t + c ∧
      e.2 = selWasteSum (sortDescending pool) e.1 +
        (selSum (sortDescending pool) e.1 - t) := by
  unfold SelectCoinsBnB at h
  split at h
  · injection h with h
    subst h
    simp at hs
  · split at h
    · exact absurd h (by simp)
    · exact absurd h (by simp)
    next s hloop =>
      split at h
      next hbest =>
        injection h with h
        subst h
        simp at hs
      next hbest =>
        have hfold := bnbLoop_foldRecords ⟨sortDescending pool, t, c⟩ 100001
          (bnbInit ⟨sortDescending pool, t, c⟩) s hloop
        rcases foldRecords_spec
            (bnbEvents ⟨sortDescending pool, t, c⟩ 100001
              (bnbInit ⟨sortDescending pool, t, c⟩))
            ((bnbInit ⟨sortDescending pool, t, c⟩).best_selection,
             (bnbInit ⟨sortDescending pool, t, c⟩).best_waste) with
          ⟨hfr, _⟩ | ⟨pre, e, post, hsplit, hfr, _, hmin, hlast⟩
        · rw [hfr] at hfold
          have hbnil : s.best_selection = [] := congrArg Prod.fst hfold
          rw [hbnil] at hbest
          simp at hbest
        · rw [hfr] at hfold
          have hbs : s.best_selection = e.1 := congrArg Prod.fst hfold
          have hbw : s.best_waste = e.2 := congrArg Prod.snd hfold
          have hemem : e ∈ bnbEvents ⟨sortDescending pool, t, c⟩ 100001
              (bnbInit ⟨sortDescending pool, t, c⟩) := by
            rw [hsplit]
            exact List.mem_append.mpr (Or.inr (List.mem_cons_self e post))
          obtain ⟨helen, helo, hehi, hewaste⟩ := bnbEvents_inv ⟨sortDescending pool, t, c⟩
            100001 (bnbInit ⟨sortDescending pool, t, c⟩)
            (bnbInit_inv ⟨sortDescending pool, t, c⟩) e hemem
          exact ⟨s, pre, post, e, hloop, hsplit, hbs, hbw, hmin, hlast, helo, hehi, hewaste⟩

/-- Witness for the amended tie-break theorem on the concrete tiePool
run, whose two recorded selections have equal waste two and whose result
is the later one. -/
theorem bnb_best_waste_min_last_tie_witness :
    ∃ (s : BnBState) (pre post : List (List (Bool × Bool) × Int))
      (e : List (Bool × Bool) × Int),
      bnbLoop ⟨sortDescending tiePool, 3, 2⟩ 100001 (bnbInit ⟨sortDescending tiePool, 3, 2⟩) =
        Except.ok (some s) ∧
      bnbEvents ⟨sortDescending tiePool, 3, 2⟩ 100001 (bnbInit ⟨sortDescending tiePool, 3, 2⟩) =
        pre ++ e :: post ∧
      s.best_selection = e.1 ∧ s.best_waste = e.2 ∧
      (∀ x ∈ bnbEvents ⟨sortDescending tiePool, 3, 2⟩ 100001
          (bnbInit ⟨sortDescending tiePool, 3, 2⟩), e.2 ≤ x.2) ∧
      (∀ x ∈ post, e.2 ≠ x.2) ∧
      3 ≤ selSum (sortDescending tiePool) e.1 ∧
      selSum (sortDescending tiePool) e.1 ≤ 3 + 2 ∧
      e.2 = selWasteSum (sortDescending tiePool) e.1 +
        (selSum (sortDescending tiePool) e.1 - 3) :=
  bnb_best_waste_min_last_tie tiePool 3 2 0 ⟨true, [⟨4, 1, 0, 1⟩], 4, 1⟩ (by decide) rfl

theorem sumValues_nil : sumValues [] = 0 := rfl

theorem sumValues_append (l1 l2 : List CInputCoin) :
    sumValues (l1 ++ l2) = sumValues l1 + sumValues l2 := by
  simp [sumValues]

theorem sumValues_nonneg (l : List CInputCoin) (h : ∀ c ∈ l, 0 ≤ c.nValue) :
    0 ≤ sumValues l := by
  induction l with
  | nil => simp [sumValues]
  | cons c cs ih =>
    rw [sumValues_cons]
    have h1 := h c (by simp)
    have h2 := ih (fun x hx => h x (by simp [hx]))
    omega

theorem sublist_sumValues_le (s l : List CInputCoin) (hs : s.Sublist l)
    (hn : ∀ c ∈ l, 0 ≤ c.nValue) : sumValues s ≤ sumValues l := by
  induction hs with
  | slnil => exact le_refl _
  | cons a hsub ih =>
    rename_i l1 l2
    rw [sumValues_cons]
    have h1 := hn a (by simp)
    have h2 := ih (fun x hx => hn x (by simp [hx]))
    omega
  | cons₂ a hsub ih =>
    rename_i l1 l2
    rw [sumValues_cons, sumValues_cons]
    have h2 := ih (fun x hx => hn x (by simp [hx]))
    omega

theorem mem_sumValues_le (c : CInputCoin) (l : List CInputCoin) (hc : c ∈ l)
    (hn : ∀ x ∈ l, 0 ≤ x.nValue) : c.nValue ≤ sumValues l := by
  have := sublist_sumValues_le [c] l (List.singleton_sublist.mpr hc) hn
  rw [sumValues_cons, sumValues_nil] at this
  omega

theorem maskSum_set :
    ∀ (cs : List CInputCoin) (bs : List Bool) (i : Nat) (c : CInputCoin) (q b : Bool),
      cs.get? i = some c → bs.get? i = some q →
      maskSum cs (bs.set i b) =
        maskSum cs bs + (if b then c.nValue else 0) - (if q then c.nValue else 0) := by
  intro cs
  induction cs with
  | nil => intro bs i c q b hc _; simp at hc
  | cons c0 cs ih =>
    intro bs i c q b hc hq
    cases bs with
    | nil => simp at hq
    | cons b0 bs =>
      cases i with
      | zero =>
        simp only [List.get?] at hc hq
        injection hc with hc
        injection hq with hq
        subst hc
        subst hq
        simp only [List.set, maskSum]
        ring
      | succ i =>
        simp only [List.get?] at hc hq
        simp only [List.set, maskSum]
        rw [ih bs i c q b hc hq]
        ring

theorem maskSum_replicate_false (cs : List CInputCoin) :
    ∀ n : Nat, maskSum cs (List.replicate n false) = 0 := by
  induction cs with
  | nil => intro n; cases n <;> rfl
  | cons c cs ih =>
    intro n
    cases n with
    | zero => rfl
    | succ n => simp [List.replicate_succ, maskSum, ih n]

theorem maskSum_replicate_true (cs : List CInputCoin) :
    maskSum cs (List.replicate cs.length true) = sumValues cs := by
  induction cs with
  | nil => rfl
  | cons c cs ih =>
    simp only [List.length_cons, List.replicate_succ, maskSum, if_true, sumValues_cons, ih]

theorem getD_replicate_false (n : Nat) :
    ∀ j : Nat, (List.replicate n false).getD j false = false := by
  induction n with
  | zero => intro j; rfl
  | succ n ih =>
    intro j
    cases j with
    | zero => rfl
    | succ j => simp [List.replicate_succ, List.getD_cons_succ, ih j]

theorem insertAll_sum : ∀ (l out : List CInputCoin) (v : Int),
    (insertAll l out v).2 = v + sumValues l := by
  intro l
  induction l with
  | nil => intro out v; simp [insertAll, sumValues]
  | cons c cs ih =>
    intro out v
    rw [insertAll, ih, sumValues_cons]
    ring

theorem insertAll_out : ∀ (l out : List CInputCoin) (v : Int),
    l.Nodup → (∀ x ∈ l, x ∉ out) → (insertAll l out v).1 = out ++ l := by
  intro l
  induction l with
  | nil => intro out v _ _; simp [insertAll]
  | cons c cs ih =>
    intro out v hnd hdis
    rw [insertAll]
    have hcnot : c ∉ out := hdis c (by simp)
    have hins : setInsert out c = out ++ [c] := by
      unfold setInsert
      rw [if_neg hcnot]
    rw [hins, ih (out ++ [c]) (v + c.nValue) (List.Nodup.of_cons hnd)]
    · simp
    · intro x hx
      simp only [List.mem_append, List.mem_singleton]
      push_neg
      refine ⟨hdis x (by simp [hx]), fun he => ?_⟩
      subst he
      exact (List.nodup_cons.mp hnd).1 hx

theorem insertMasked_sum : ∀ (cs : List CInputCoin) (bs : List Bool)
    (out : List CInputCoin) (v : Int),
    (insertMasked cs bs out v).2 = v + maskSum cs bs := by
  intro cs
  induction cs with
  | nil => intro bs out v; cases bs <;> simp [insertMasked, maskSum]
  | cons c cs ih =>
    intro bs out v
    cases bs with
    | nil => simp [insertMasked, maskSum]
    | cons b bs =>
      rw [insertMasked]
      by_cases hb : b = true
      · rw [if_pos hb, ih]
        simp [maskSum, hb]
        ring
      · rw [if_neg hb, ih]
        simp [maskSum, hb]

theorem maskedCoins_sublist (cs : List CInputCoin) :
    ∀ bs : List Bool, (maskedCoins cs bs).Sublist cs := by
  induction cs with
  | nil => intro bs; cases bs <;> simp [maskedCoins]
  | cons c cs ih =>
    intro bs
    cases bs with
    | nil => simp [maskedCoins]
    | cons b bs =>
      by_cases hb : b = true
      · simpa [maskedCoins, hb] using (ih bs).cons₂ c
      · simpa [maskedCoins, hb] using (ih bs).cons c

theorem sumValues_maskedCoins (cs : List CInputCoin) :
    ∀ bs : List Bool, sumValues (maskedCoins cs bs) = maskSum cs bs := by
  induction cs with
  | nil => intro bs; cases bs <;> rfl
  | cons c cs ih =>
    intro bs
    cases bs with
    | nil => rfl
    | cons b bs =>
      by_cases hb : b = true
      · have hm : maskedCoins (c :: cs) (b :: bs) = c :: maskedCoins cs bs := by
          simp [maskedCoins, hb]
        rw [hm, sumValues_cons, ih bs]
        simp [maskSum, hb]
      · have hm : maskedCoins (c :: cs) (b :: bs) = maskedCoins cs bs := by
          simp [maskedCoins, hb]
        rw [hm, ih bs]
        simp [maskSum, hb]

theorem insertMasked_out : ∀ (cs : List CInputCoin) (bs : List Bool)
    (out : List CInputCoin) (v : Int),
    (maskedCoins cs bs).Nodup → (∀ x ∈ maskedCoins cs bs, x ∉ out) →
    (insertMasked cs bs out v).1 = out ++ maskedCoins cs bs := by
  intro cs
  induction cs with
  | nil => intro bs out v _ _; cases bs <;> simp [insertMasked, maskedCoins]
  | cons c cs ih =>
    intro bs out v hnd hdis
    cases bs with
    | nil => simp [insertMasked, maskedCoins]
    | cons b bs =>
      rw [insertMasked]
      by_cases hb : b = true
      · have hm : maskedCoins (c :: cs) (b :: bs) = c :: maskedCoins cs bs := by
          simp [maskedCoins, hb]
        rw [hm] at hnd hdis
        have hcnot : c ∉ out := hdis c (by simp)
        have hins : setInsert out c = out ++ [c] := by
          unfold setInsert
          rw [if_neg hcnot]
        rw [if_pos hb, hins, ih bs (out ++ [c]) (v + c.nValue) (List.Nodup.of_cons hnd)]
        · rw [hm]
          simp
        · intro x hx
          simp only [List.mem_append, List.mem_singleton]
          push_neg
          refine ⟨hdis x (by simp [hx]), fun he => ?_⟩
          subst he
          exact (List.nodup_cons.mp hnd).1 hx
      · have hm : maskedCoins (c :: cs) (b :: bs) = maskedCoins cs bs := by
          simp [maskedCoins, hb]
        rw [hm] at hnd hdis
        rw [if_neg hb, ih bs out v hnd hdis, hm]

theorem knapScan_nil (t : Int) (vv0 : List CInputCoin) (n0 : Int) (cll0 : Option CInputCoin) :
    knapScan t [] vv0 n0 cll0 = .inr (vv0, n0, cll0) := rfl

theorem knapScan_cons (t : Int) (coin : CInputCoin) (rest vv0 : List CInputCoin) (n0 : Int)
    (cll0 : Option CInputCoin) :
    knapScan t (coin :: rest) vv0 n0 cll0 =
      (if coin.nValue = t then .inl coin
       else if coin.nValue < t + MIN_CHANGE then
         knapScan t rest (vv0 ++ [coin]) (n0 + coin.nValue) cll0
       else
         match cll0 with
         | none => knapScan t rest vv0 n0 (some coin)
         | some l =>
           if coin.nValue < l.nValue then knapScan t rest vv0 n0 (some coin)
           else knapScan t rest vv0 n0 (some l)) := rfl

theorem knapScan_spec (t : Int) :
    ∀ (l vv0 : List CInputCoin) (n0 : Int) (cll0 : Option CInputCoin),
      (∀ x : CInputCoin, cll0 = some x → t + MIN_CHANGE ≤ x.nValue) →
      (∀ coin : CInputCoin, knapScan t l vv0 n0 cll0 = .inl coin →
        coin ∈ l ∧ coin.nValue = t) ∧
      (∀ (vv : List CInputCoin) (n : Int) (cll : Option CInputCoin),
        knapScan t l vv0 n0 cll0 = .inr (vv, n, cll) →
        (∃ sel : List CInputCoin, sel.Sublist l ∧ vv = vv0 ++ sel ∧ n = n0 + sumValues sel) ∧
        (∀ x : CInputCoin, cll = some x →
          t + MIN_CHANGE ≤ x.nValue ∧ (x ∈ l ∨ cll0 = some x)) ∧
        (cll = none → cll0 = none ∧ n = n0 + sumValues l)) := by
  intro l
  induction l with
  | nil =>
    intro vv0 n0 cll0 hcll0
    constructor
    · intro coin h
      rw [knapScan_nil] at h
      exact absurd h (by simp)
    · intro vv n cll h
      rw [knapScan_nil] at h
      injection h with h
      injection h with h1 h
      injection h with h2 h3
      subst h1
      subst h2
      subst h3
      refine ⟨⟨[], List.nil_sublist _, by simp, by simp [sumValues_nil]⟩, ?_, ?_⟩
      · intro x hx
        exact ⟨hcll0 x hx, Or.inr hx⟩
      · intro hn
        exact ⟨hn, by simp [sumValues_nil]⟩
  | cons coin rest ih =>
    intro vv0 n0 cll0 hcll0
    by_cases h1 : coin.nValue = t
    · have heq : knapScan t (coin :: rest) vv0 n0 cll0 = .inl coin := by
        rw [knapScan_cons]
        exact if_pos h1
      constructor
      · intro coin0 h
        rw [heq] at h
        injection h with h
        subst h
        exact ⟨by simp, h1⟩
      · intro vv n cll h
        rw [heq] at h
        exact absurd h (by simp)
    · by_cases h2 : coin.nValue < t + MIN_CHANGE
      · have heq : knapScan t (coin :: rest) vv0 n0 cll0 =
            knapScan t rest (vv0 ++ [coin]) (n0 + coin.nValue) cll0 := by
          rw [knapScan_cons, if_neg h1]
          exact if_pos h2
        have ihr := ih (vv0 ++ [coin]) (n0 + coin.nValue) cll0 hcll0
        constructor
        · intro coin0 h
          rw [heq] at h
          obtain ⟨hm, hv⟩ := ihr.1 coin0 h
          exact ⟨by simp [hm], hv⟩
        · intro vv n cll h
          rw [heq] at h
          obtain ⟨⟨sel, hsub, hvv, hn⟩, hsome, hnone⟩ := ihr.2 vv n cll h
          refine ⟨⟨coin :: sel, hsub.cons₂ coin, by simp [hvv],
            by rw [hn, sumValues_cons]; ring⟩, ?_, ?_⟩
          · intro x hx
            obtain ⟨hb, hm⟩ := hsome x hx
            exact ⟨hb, hm.imp (fun hh => by simp [hh]) id⟩
          · intro hc
            obtain ⟨hc0, hs⟩ := hnone hc
            exact ⟨hc0, by rw [hs, sumValues_cons]; ring⟩
      · have hge : t + MIN_CHANGE ≤ coin.nValue := by omega
        cases hc0eq : cll0 with
        | none =>
          have heq : knapScan t (coin :: rest) vv0 n0 none =
              knapScan t rest vv0 n0 (some coin) := by
            rw [knapScan_cons, if_neg h1, if_neg h2]
          have ihr := ih vv0 n0 (some coin)
            (by intro x hx; injection hx with hx; subst hx; exact hge)
          constructor
          · intro coin0 h
            rw [heq] at h
            obtain ⟨hm, hv⟩ := ihr.1 coin0 h
            exact ⟨by simp [hm], hv⟩
          · intro vv n cll h
            rw [heq] at h
            obtain ⟨⟨sel, hsub, hvv, hn⟩, hsome, hnone⟩ := ihr.2 vv n cll h
            refine ⟨⟨sel, hsub.cons coin, hvv, hn⟩, ?_, ?_⟩
            · intro x hx
              obtain ⟨hb, hm⟩ := hsome x hx
              refine ⟨hb, Or.inl ?_⟩
              rcases hm with hm | hm
              · simp [hm]
              · injection hm with hm
                subst hm
                simp
            · intro hc
              obtain ⟨hc2, _⟩ := hnone hc
              exact absurd hc2 (by simp)
        | some lc =>
          have hlc : t + MIN_CHANGE ≤ lc.nValue := hcll0 lc hc0eq
          by_cases h3 : coin.nValue < lc.nValue
          · have heq : knapScan t (coin :: rest) vv0 n0 (some lc) =
                knapScan t rest vv0 n0 (some coin) := by
              rw [knapScan_cons, if_neg h1, if_neg h2]
              exact if_pos h3
            have ihr := ih vv0 n0 (some coin)
              (by intro x hx; injection hx with hx; subst hx; exact hge)
            constructor
            · intro coin0 h
              rw [heq] at h
              obtain ⟨hm, hv⟩ := ihr.1 coin0 h
              exact ⟨by simp [hm], hv⟩
            · intro vv n cll h
              rw [heq] at h
              obtain ⟨⟨sel, hsub, hvv, hn⟩, hsome, hnone⟩ := ihr.2 vv n cll h
              refine ⟨⟨sel, hsub.cons coin, hvv, hn⟩, ?_, ?_⟩
              · intro x hx
                obtain ⟨hb, hm⟩ := hsome x hx
                refine ⟨hb, Or.inl ?_⟩
                rcases hm with hm | hm
                · simp [hm]
                · injection hm with hm
                  subst hm
                  simp
              · intro hc
                obtain ⟨hc2, _⟩ := hnone hc
                exact absurd hc2 (by simp)
          · have heq : knapScan t (coin :: rest) vv0 n0 (some lc) =
                knapScan t rest vv0 n0 (some lc) := by
              rw [knapScan_cons, if_neg h1, if_neg h2]
              exact if_neg h3
            have ihr := ih vv0 n0 (some lc)
              (by intro x hx; injection hx with hx; subst hx; exact hlc)
            constructor
            · intro coin0 h
              rw [heq] at h
              obtain ⟨hm, hv⟩ := ihr.1 coin0 h
              exact ⟨by simp [hm], hv⟩
            · intro vv n cll h
              rw [heq] at h
              obtain ⟨⟨sel, hsub, hvv, hn⟩, hsome, hnone⟩ := ihr.2 vv n cll h
              refine ⟨⟨sel, hsub.cons coin, hvv, hn⟩, ?_, ?_⟩
              · intro x hx
                obtain ⟨hb, hm⟩ := hsome x hx
                refine ⟨hb, ?_⟩
                rcases hm with hm | hm
                · exact Or.inl (by simp [hm])
                · exact Or.inr hm
              · intro hc
                obtain ⟨hc2, _⟩ := hnone hc
                exact absurd hc2 (by simp)

theorem get?_eq_getD_of_lt (bs : List Bool) (i : Nat) (h : i < bs.length) :
    bs.get? i = some (bs.getD i false) := by
  rw [List.getD_eq_get?]
  cases hx : bs.get? i with
  | none =>
    rw [List.get?_eq_none] at hx
    omega
  | some b => rfl

theorem getD_set_ne (bs : List Bool) (i j : Nat) (b : Bool) (h : i ≠ j) :
    (bs.set i b).getD j false = bs.getD j false := by
  rw [List.getD_eq_get?, List.getD_eq_get?, List.get?_set_ne _ _ h]

theorem absScan_nil (pass0 : Bool) (rng : Nat → Bool) (t : Int) (i : Nat) (st : AbsState) :
    absScan pass0 rng t [] i st = st := rfl

theorem absScan_cons (pass0 : Bool) (rng : Nat → Bool) (t : Int) (c : CInputCoin)
    (rest : List CInputCoin) (i : Nat) (st : AbsState) :
    absScan pass0 rng t (c :: rest) i st =
      (if (if pass0 then rng st.k else !(st.vfIncluded.getD i false)) then
        if st.nTotal + c.nValue ≥ t then
          absScan pass0 rng t rest (i + 1)
            { vfIncluded := ((st.vfIncluded.set i true).set i false)
              nTotal := st.nTotal + c.nValue - c.nValue
              fReachedTarget := true
              vfBest := if st.nTotal + c.nValue < st.nBest then st.vfIncluded.set i true
                        else st.vfBest
              nBest := if st.nTotal + c.nValue < st.nBest then st.nTotal + c.nValue
                       else st.nBest
              k := if pass0 then st.k + 1 else st.k }
        else
          absScan pass0 rng t rest (i + 1)
            { st with vfIncluded := st.vfIncluded.set i true
                      nTotal := st.nTotal + c.nValue
                      k := if pass0 then st.k + 1 else st.k }
      else
        absScan pass0 rng t rest (i + 1)
          { st with k := if pass0 then st.k + 1 else st.k }) := rfl

theorem absScan_spec (pass0 : Bool) (rng : Nat → Bool) (t : Int) (full : List CInputCoin) :
    ∀ (l : List CInputCoin) (i : Nat) (st : AbsState),
      full.drop i = l →
      st.vfIncluded.length = full.length →
      st.nTotal = maskSum full st.vfIncluded →
      st.nBest = maskSum full st.vfBest →
      st.vfBest.length = full.length →
      (pass0 = true → ∀ j : Nat, i ≤ j → st.vfIncluded.getD j false = false) →
      (absScan pass0 rng t l i st).vfIncluded.length = full.length ∧
      (absScan pass0 rng t l i st).nTotal =
        maskSum full (absScan pass0 rng t l i st).vfIncluded ∧
      (absScan pass0 rng t l i st).nBest =
        maskSum full (absScan pass0 rng t l i st).vfBest ∧
      (absScan pass0 rng t l i st).vfBest.length = full.length ∧
      ((absScan pass0 rng t l i st).nBest = st.nBest ∨ t ≤ (absScan pass0 rng t l i st).nBest) := by
  intro l
  induction l with
  | nil =>
    intro i st _ h2 h3 h4 h5 _
    rw [absScan_nil]
    exact ⟨h2, h3, h4, h5, Or.inl rfl⟩
  | cons c restl ih =>
    intro i st hdrop hlen hnt hnb hblen hp0
    have hilt : i < full.length := by
      by_contra hcon
      rw [List.drop_eq_nil_of_le (by omega)] at hdrop
      exact absurd hdrop (by simp)
    have hget : full.get? i = some c := by
      have hgd := List.get?_drop full i 0
      rw [Nat.add_zero] at hgd
      rw [← hgd, hdrop]
      rfl
    have hdrop2 : full.drop (i + 1) = restl := by
      have hdd := List.drop_drop 1 i full
      rw [hdrop] at hdd
      simpa using hdd.symm
    have hivf : i < st.vfIncluded.length := by omega
    rw [absScan_cons]
    by_cases hcond : (if pass0 then rng st.k else !(st.vfIncluded.getD i false)) = true
    · rw [if_pos hcond]
      have hbit : st.vfIncluded.getD i false = false := by
        cases hpv : pass0 with
        | true => exact hp0 hpv i (le_refl i)
        | false =>
          rw [hpv, if_neg (by simp)] at hcond
          rw [Bool.not_eq_true'] at hcond
          exact hcond
      have hbitget : st.vfIncluded.get? i = some false := by
        rw [get?_eq_getD_of_lt st.vfIncluded i hivf, hbit]
      by_cases hreach : st.nTotal + c.nValue ≥ t
      · rw [if_pos hreach]
        have hres := ih (i + 1)
          { vfIncluded := ((st.vfIncluded.set i true).set i false)
            nTotal := st.nTotal + c.nValue - c.nValue
            fReachedTarget := true
            vfBest := if st.nTotal + c.nValue < st.nBest then st.vfIncluded.set i true
                      else st.vfBest
            nBest := if st.nTotal + c.nValue < st.nBest then st.nTotal + c.nValue
                     else st.nBest
            k := if pass0 then st.k + 1 else st.k }
          hdrop2
          (by
            show ((st.vfIncluded.set i true).set i false).length = full.length
            rw [List.set_set, List.length_set, hlen])
          (by
            show st.nTotal + c.nValue - c.nValue =
              maskSum full ((st.vfIncluded.set i true).set i false)
            rw [List.set_set, maskSum_set full st.vfIncluded i c false false hget hbitget, hnt]
            simp)
          (by
            show (if st.nTotal + c.nValue < st.nBest then st.nTotal + c.nValue else st.nBest) =
              maskSum full (if st.nTotal + c.nValue < st.nBest then st.vfIncluded.set i true
                else st.vfBest)
            by_cases himp : st.nTotal + c.nValue < st.nBest
            · rw [if_pos himp, if_pos himp,
                maskSum_set full st.vfIncluded i c false true hget hbitget, hnt]
              simp
            · rw [if_neg himp, if_neg himp, hnb])
          (by
            show (if st.nTotal + c.nValue < st.nBest then st.vfIncluded.set i true
                else st.vfBest).length = full.length
            by_cases himp : st.nTotal + c.nValue < st.nBest
            · rw [if_pos himp, List.length_set, hlen]
            · rw [if_neg himp, hblen])
          (by
            intro hpv j hj
            show ((st.vfIncluded.set i true).set i false).getD j false = false
            rw [List.set_set]
            by_cases hij : i = j
            · subst hij
              rw [List.getD_eq_get?, List.get?_set_eq_of_lt _ hivf]
              rfl
            · rw [getD_set_ne _ _ _ _ hij]
              exact hp0 hpv j (by omega))
        refine ⟨hres.1, hres.2.1, hres.2.2.1, hres.2.2.2.1, ?_⟩
        rcases hres.2.2.2.2 with heq | hge
        · rw [heq]
          show (if st.nTotal + c.nValue < st.nBest then st.nTotal + c.nValue else st.nBest) =
              st.nBest ∨
            t ≤ (if st.nTotal + c.nValue < st.nBest then st.nTotal + c.nValue else st.nBest)
          by_cases himp : st.nTotal + c.nValue < st.nBest
          · right
            rw [if_pos himp]
            exact hreach
          · left
            rw [if_neg himp]
        · right
          exact hge
      · rw [if_neg hreach]
        have hres := ih (i + 1)
          { st with vfIncluded := st.vfIncluded.set i true
                    nTotal := st.nTotal + c.nValue
                    k := if pass0 then st.k + 1 else st.k }
          hdrop2
          (by show (st.vfIncluded.set i true).length = full.length; rw [List.length_set, hlen])
          (by
            show st.nTotal + c.nValue = maskSum full (st.vfIncluded.set i true)
            rw [maskSum_set full st.vfIncluded i c false true hget hbitget, hnt]
            simp)
          hnb hblen
          (by
            intro hpv j hj
            show (st.vfIncluded.set i true).getD j false = false
            rw [getD_set_ne _ _ _ _ (by omega)]
            exact hp0 hpv j (by omega))
        exact hres
    · rw [if_neg hcond]
      exact ih (i + 1) _ hdrop2 hlen hnt hnb hblen
        (fun hpv j hj => hp0 hpv j (by omega))

theorem absReps_zero (rng : Nat → Bool) (t : Int) (vValue : List CInputCoin)
    (vfBest : List Bool) (nBest : Int) (k : Nat) :
    absReps rng t vValue 0 vfBest nBest k = (vfBest, nBest, k) := rfl

theorem absReps_succ (rng : Nat → Bool) (t : Int) (vValue : List CInputCoin) (m : Nat)
    (vfBest : List Bool) (nBest : Int) (k : Nat) :
    absReps rng t vValue (m + 1) vfBest nBest k =
      if nBest = t then (vfBest, nBest, k)
      else
        if (absScan true rng t vValue 0
            ⟨List.replicate vValue.length false, 0, false, vfBest, nBest, k⟩).fReachedTarget then
          absReps rng t vValue m
            (absScan true rng t vValue 0
              ⟨List.replicate vValue.length false, 0, false, vfBest, nBest, k⟩).vfBest
            (absScan true rng t vValue 0
              ⟨List.replicate vValue.length false, 0, false, vfBest, nBest, k⟩).nBest
            (absScan true rng t vValue 0
              ⟨List.replicate vValue.length false, 0, false, vfBest, nBest, k⟩).k
        else
          absReps rng t vValue m
            (absScan false rng t vValue 0 (absScan true rng t vValue 0
              ⟨List.replicate vValue.length false, 0, false, vfBest, nBest, k⟩)).vfBest
            (absScan false rng t vValue 0 (absScan true rng t vValue 0
              ⟨List.replicate vValue.length false, 0, false, vfBest, nBest, k⟩)).nBest
            (absScan false rng t vValue 0 (absScan true rng t vValue 0
              ⟨List.replicate vValue.length false, 0, false, vfBest, nBest, k⟩)).k := rfl

theorem absReps_spec (rng : Nat → Bool) (t : Int) (vValue : List CInputCoin) :
    ∀ (m : Nat) (vfBest : List Bool) (nBest : Int) (k : Nat),
      vfBest.length = vValue.length →
      nBest = maskSum vValue vfBest →
      (absReps rng t vValue m vfBest nBest k).1.length = vValue.length ∧
      (absReps rng t vValue m vfBest nBest k).2.1 =
        maskSum vValue (absReps rng t vValue m vfBest nBest k).1 ∧
      ((absReps rng t vValue m vfBest nBest k).2.1 = nBest ∨
        t ≤ (absReps rng t vValue m vfBest nBest k).2.1) := by
  intro m
  induction m with
  | zero =>
    intro vfBest nBest k hlen hnb
    rw [absReps_zero]
    exact ⟨hlen, hnb, Or.inl rfl⟩
  | succ m ih =>
    intro vfBest nBest k hlen hnb
    rw [absReps_succ]
    by_cases hstop : nBest = t
    · rw [if_pos hstop]
      exact ⟨hlen, hnb, Or.inl rfl⟩
    · rw [if_neg hstop]
      have h1 := absScan_spec true rng t vValue vValue 0
        ⟨List.replicate vValue.length false, 0, false, vfBest, nBest, k⟩
        (by rw [List.drop_zero])
        (by show (List.replicate vValue.length false).length = vValue.length
            rw [List.length_replicate])
        (by show (0 : Int) = maskSum vValue (List.replicate vValue.length false)
            rw [maskSum_replicate_false])
        hnb hlen
        (fun _ j _ => getD_replicate_false vValue.length j)
      by_cases hreach : (absScan true rng t vValue 0
          ⟨List.replicate vValue.length false, 0, false, vfBest, nBest, k⟩).fReachedTarget
      · rw [if_pos hreach]
        have hres := ih (absScan true rng t vValue 0
            ⟨List.replicate vValue.length false, 0, false, vfBest, nBest, k⟩).vfBest
          (absScan true rng t vValue 0
            ⟨List.replicate vValue.length false, 0, false, vfBest, nBest, k⟩).nBest
          (absScan true rng t vValue 0
            ⟨List.replicate vValue.length false, 0, false, vfBest, nBest, k⟩).k
          h1.2.2.2.1 h1.2.2.1
        refine ⟨hres.1, hres.2.1, ?_⟩
        rcases hres.2.2 with heq | hge
        · rcases h1.2.2.2.2 with heq2 | hge2
          · exact Or.inl (heq.trans heq2)
          · exact Or.inr (by rw [heq]; exact hge2)
        · exact Or.inr hge
      · rw [if_neg hreach]
        have h2 := absScan_spec false rng t vValue vValue 0
          (absScan true rng t vValue 0
            ⟨List.replicate vValue.length false, 0, false, vfBest, nBest, k⟩)
          (by rw [List.drop_zero])
          h1.1 h1.2.1 h1.2.2.1 h1.2.2.2.1
          (fun hpv => absurd hpv (by simp))
        have hres := ih (absScan false rng t vValue 0 (absScan true rng t vValue 0
            ⟨List.replicate vValue.length false, 0, false, vfBest, nBest, k⟩)).vfBest
          (absScan false rng t vValue 0 (absScan true rng t vValue 0
            ⟨List.replicate vValue.length false, 0, false, vfBest, nBest, k⟩)).nBest
          (absScan false rng t vValue 0 (absScan true rng t vValue 0
            ⟨List.replicate vValue.length false, 0, false, vfBest, nBest, k⟩)).k
          h2.2.2.2.1 h2.2.2.1
        refine ⟨hres.1, hres.2.1, ?_⟩
        rcases hres.2.2 with heq | hge
        · rcases h2.2.2.2.2 with heq2 | hge2
          · rcases h1.2.2.2.2 with heq3 | hge3
            · exact Or.inl ((heq.trans heq2).trans heq3)
            · exact Or.inr (by rw [heq, heq2]; exact hge3)
          · exact Or.inr (by rw [heq]; exact hge2)
        · exact Or.inr hge

/-- ApproximateBestSubset establishes: the returned mask has the length
of vValue, the returned nBest is the masked sum of vValue under the
returned mask, and nBest either still equals nTotalLower (the all-true
initial best) or has reached the target. -/
theorem ApproximateBestSubset_spec (vValue : List CInputCoin) (nTotalLower nTargetValue : Int)
    (rng : Nat → Bool) (k : Nat) (iterations : Nat)
    (hinit : nTotalLower = sumValues vValue) :
    (ApproximateBestSubset vValue nTotalLower nTargetValue rng k iterations).1.length =
      vValue.length ∧
    (ApproximateBestSubset vValue nTotalLower nTargetValue rng k iterations).2.1 =
      maskSum vValue (ApproximateBestSubset vValue nTotalLower nTargetValue rng k iterations).1 ∧
    ((ApproximateBestSubset vValue nTotalLower nTargetValue rng k iterations).2.1 = nTotalLower ∨
      nTargetValue ≤ (ApproximateBestSubset vValue nTotalLower nTargetValue rng k iterations).2.1) := by
  have h := absReps_spec rng nTargetValue vValue iterations
    (List.replicate vValue.length true) nTotalLower k
    (by rw [List.length_replicate])
    (by rw [hinit, maskSum_replicate_true])
  exact h

theorem KnapsackSolver_inl (pool : List CInputCoin) (t : Int) (rng : Nat → Bool)
    (coin : CInputCoin) (h : knapScan t pool [] 0 none = .inl coin) :
    KnapsackSolver pool t rng = ⟨true, setInsert [] coin, coin.nValue⟩ := by
  unfold KnapsackSolver
  rw [h]

theorem KnapsackSolver_inr (pool : List CInputCoin) (t : Int) (rng : Nat → Bool)
    (vValue : List CInputCoin) (nTotalLower : Int) (cll : Option CInputCoin)
    (h : knapScan t pool [] 0 none = .inr (vValue, nTotalLower, cll)) :
    KnapsackSolver pool t rng =
      (if nTotalLower = t then
        ⟨true, (insertAll vValue [] 0).1, (insertAll vValue [] 0).2⟩
      else if nTotalLower < t then
        cll.elim ⟨false, [], 0⟩ (fun c => ⟨true, setInsert [] c, c.nValue⟩)
      else
        cll.elim
          ⟨true,
            (insertMasked (sortDescending vValue) (knapApprox vValue nTotalLower t rng).1 [] 0).1,
            (insertMasked (sortDescending vValue) (knapApprox vValue nTotalLower t rng).1 [] 0).2⟩
          (fun c =>
            if ((knapApprox vValue nTotalLower t rng).2.1 ≠ t ∧
                (knapApprox vValue nTotalLower t rng).2.1 < t + MIN_CHANGE) ∨
               c.nValue ≤ (knapApprox vValue nTotalLower t rng).2.1
            then ⟨true, setInsert [] c, c.nValue⟩
            else ⟨true,
              (insertMasked (sortDescending vValue) (knapApprox vValue nTotalLower t rng).1 [] 0).1,
              (insertMasked (sortDescending vValue)
                (knapApprox vValue nTotalLower t rng).1 [] 0).2⟩)) := by
  unfold KnapsackSolver
  split
  · next coin heq =>
    rw [h] at heq
    exact Sum.noConfusion heq
  · next vValue2 nTotalLower2 cll2 heq =>
    rw [h] at heq
    injection heq with heq
    injection heq with h1 heq
    injection heq with h2 h3
    subst h1
    subst h2
    subst h3
    rfl

theorem knapApprox_eq (vValue : List CInputCoin) (nTotalLower t : Int) (rng : Nat → Bool) :
    knapApprox vValue nTotalLower t rng =
      if (ApproximateBestSubset (sortDescending vValue) nTotalLower t rng 0 1000).2.1 ≠ t ∧
         nTotalLower ≥ t + MIN_CHANGE then
        ApproximateBestSubset (sortDescending vValue) nTotalLower (t + MIN_CHANGE) rng
          (ApproximateBestSubset (sortDescending vValue) nTotalLower t rng 0 1000).2.2 1000
      else ApproximateBestSubset (sortDescending vValue) nTotalLower t rng 0 1000 := rfl

theorem knapApprox_spec (vValue : List CInputCoin) (nTotalLower t : Int) (rng : Nat → Bool)
    (hinit : nTotalLower = sumValues vValue) :
    (knapApprox vValue nTotalLower t rng).1.length = (sortDescending vValue).length ∧
    (knapApprox vValue nTotalLower t rng).2.1 =
      maskSum (sortDescending vValue) (knapApprox vValue nTotalLower t rng).1 ∧
    ((knapApprox vValue nTotalLower t rng).2.1 = nTotalLower ∨
      t ≤ (knapApprox vValue nTotalLower t rng).2.1) := by
  have hinit2 : nTotalLower = sumValues (sortDescending vValue) := by
    rw [sumValues_sortDescending]
    exact hinit
  have h1 := ApproximateBestSubset_spec (sortDescending vValue) nTotalLower t rng 0 1000 hinit2
  rw [knapApprox_eq]
  by_cases hcond : (ApproximateBestSubset (sortDescending vValue) nTotalLower t rng 0 1000).2.1 ≠ t ∧
      nTotalLower ≥ t + MIN_CHANGE
  · rw [if_pos hcond]
    have h2 := ApproximateBestSubset_spec (sortDescending vValue) nTotalLower (t + MIN_CHANGE) rng
      (ApproximateBestSubset (sortDescending vValue) nTotalLower t rng 0 1000).2.2 1000 hinit2
    refine ⟨h2.1, h2.2.1, ?_⟩
    rcases h2.2.2 with heq | hge
    · exact Or.inl heq
    · have hmc : (MIN_CHANGE : Int) = 1000000 := rfl
      exact Or.inr (by omega)
  · rw [if_neg hcond]
    exact h1

/-- C6: over pools of non-negative coin values (the wallet's domain: the
pool holds gross UTXO amounts), KnapsackSolver returns success exactly
when some subset of the (shuffled) pool has gross-value sum at least the
target, and on every success the returned value_ret is at least the
target; this holds for every shuffle outcome and every random stream. -/
theorem knapsack_success_iff_coverage (pool : List CInputCoin) (t : Int) (rng : Nat → Bool)
    (hpos : ∀ c ∈ pool, 0 ≤ c.nValue) :
    ((KnapsackSolver pool t rng).success = true ↔
      ∃ s : List CInputCoin, s.Sublist pool ∧ t ≤ sumValues s) ∧
    ((KnapsackSolver pool t rng).success = true →
      t ≤ (KnapsackSolver pool t rng).value_ret) := by
  have hmc : (MIN_CHANGE : Int) = 1000000 := rfl
  cases hscan : knapScan t pool [] 0 none with
  | inl coin =>
    obtain ⟨hmem, hval⟩ :=
      (knapScan_spec t pool [] 0 none (fun x hx => absurd hx (by simp))).1 coin hscan
    have hK := KnapsackSolver_inl pool t rng coin hscan
    rw [hK]
    refine ⟨⟨fun _ => ⟨[coin], List.singleton_sublist.mpr hmem, ?_⟩, fun _ => rfl⟩, fun _ => ?_⟩
    · rw [sumValues_cons, sumValues_nil]
      omega
    · show t ≤ coin.nValue
      omega
  | inr trip =>
    obtain ⟨vValue, nTotalLower, cll⟩ := trip
    obtain ⟨⟨sel, hsel, hvv, hn⟩, hsome, hnone⟩ :=
      (knapScan_spec t pool [] 0 none (fun x hx => absurd hx (by simp))).2
        vValue nTotalLower cll hscan
    simp only [List.nil_append] at hvv
    subst hvv
    have hnl : nTotalLower = sumValues vValue := by omega
    have hK := KnapsackSolver_inr pool t rng vValue nTotalLower cll hscan
    rw [hK]
    by_cases heq : nTotalLower = t
    · rw [if_pos heq]
      refine ⟨⟨fun _ => ⟨vValue, hsel, ?_⟩, fun _ => rfl⟩, fun _ => ?_⟩
      · omega
      · show t ≤ (insertAll vValue [] 0).2
        rw [insertAll_sum]
        omega
    · rw [if_neg heq]
      by_cases hlt : nTotalLower < t
      · rw [if_pos hlt]
        cases cll with
        | none =>
          obtain ⟨-, hsum⟩ := hnone rfl
          refine ⟨⟨fun hf => absurd hf (by simp [Option.elim]), ?_⟩,
            fun hf => absurd hf (by simp [Option.elim])⟩
          rintro ⟨s, hs, hts⟩
          have hle := sublist_sumValues_le s pool hs hpos
          exact absurd hts (by omega)
        | some c =>
          obtain ⟨hcv, hcm⟩ := hsome c rfl
          have hcmem : c ∈ pool := by
            rcases hcm with hcm | hcm
            · exact hcm
            · exact absurd hcm (by simp)
          refine ⟨⟨fun _ => ⟨[c], List.singleton_sublist.mpr hcmem, ?_⟩, fun _ => rfl⟩,
            fun _ => ?_⟩
          · rw [sumValues_cons, sumValues_nil]
            omega
          · show t ≤ c.nValue
            omega
      · rw [if_neg hlt]
        have hex : ∃ s : List CInputCoin, s.Sublist pool ∧ t ≤ sumValues s :=
          ⟨vValue, hsel, by omega⟩
        have habs := knapApprox_spec vValue nTotalLower t rng hnl
        have hKB : t ≤ (knapApprox vValue nTotalLower t rng).2.1 := by
          rcases habs.2.2 with hb | hb
          · omega
          · exact hb
        cases cll with
        | none =>
          refine ⟨⟨fun _ => hex, fun _ => rfl⟩, fun _ => ?_⟩
          show t ≤ (insertMasked (sortDescending vValue)
            (knapApprox vValue nTotalLower t rng).1 [] 0).2
          rw [insertMasked_sum]
          have h2 := habs.2.1
          omega
        | some c =>
          obtain ⟨hcv, -⟩ := hsome c rfl
          simp only [Option.elim]
          by_cases hg : ((knapApprox vValue nTotalLower t rng).2.1 ≠ t ∧
              (knapApprox vValue nTotalLower t rng).2.1 < t + MIN_CHANGE) ∨
              c.nValue ≤ (knapApprox vValue nTotalLower t rng).2.1
          · rw [if_pos hg]
            have hcg : t ≤ c.nValue := by omega
            exact ⟨⟨fun _ => hex, fun _ => rfl⟩, fun _ => hcg⟩
          · rw [if_neg hg]
            refine ⟨⟨fun _ => hex, fun _ => rfl⟩, fun _ => ?_⟩
            show t ≤ (insertMasked (sortDescending vValue)
              (knapApprox vValue nTotalLower t rng).1 [] 0).2
            rw [insertMasked_sum]
            have h2 := habs.2.1
            omega

/-- C7 (counterexample): with a duplicated candidate (two identical pool
entries of value five, target ten), KnapsackSolver succeeds via the
nTotalLower-equals-target branch with value_ret ten, but out_set, a set,
deduplicates the twin insertions and sums to five: value_ret counts every
selected pool slot while out_set keeps one copy, refuting the claim for
pools with duplicate candidates.  The same mismatch between the
accumulator and the set insert exists in the source, lines 246 to 250. -/
theorem knapsack_duplicate_counterexample :
    (KnapsackSolver [⟨5, 0, 0, 7⟩, ⟨5, 0, 0, 7⟩] 10 (fun _ => false)).success = true ∧
    (KnapsackSolver [⟨5, 0, 0, 7⟩, ⟨5, 0, 0, 7⟩] 10 (fun _ => false)).value_ret ≠
      sumValues (KnapsackSolver [⟨5, 0, 0, 7⟩, ⟨5, 0, 0, 7⟩] 10 (fun _ => false)).out_set := by
  constructor
  · rfl
  · decide

theorem sumValues_setInsert_nil (c : CInputCoin) :
    sumValues (setInsert [] c) = c.nValue := by
  unfold setInsert
  rw [if_neg (by simp), List.nil_append, sumValues_cons, sumValues_nil]
  omega

theorem insertMasked_nil_balanced (cs : List CInputCoin) (bs : List Bool) (h : cs.Nodup) :
    (insertMasked cs bs [] 0).2 = sumValues (insertMasked cs bs [] 0).1 := by
  have hmnd := (maskedCoins_sublist cs bs).nodup h
  rw [insertMasked_out cs bs [] 0 hmnd (by intro x hx; simp), insertMasked_sum]
  rw [List.nil_append, sumValues_maskedCoins]
  omega

/-- C7 (amended): when the pool's candidates have pairwise distinct
outpoints (no duplicate candidates), every successful call of either
SelectCoinsBnB or KnapsackSolver returns value_ret equal to the sum of
the values of exactly the candidates in out_set; with duplicate
candidates the equality can fail, since the set deduplicates while the
accumulator does not. -/
theorem value_ret_matches_out_set (pool : List CInputCoin) (t c f tk : Int)
    (rng : Nat → Bool) (r : BnBResult)
    (hdist : pool.Pairwise (fun a b => a.outpoint ≠ b.outpoint))
    (h : SelectCoinsBnB pool t c f = Except.ok r) (hs : r.success = true)
    (hks : (KnapsackSolver pool tk rng).success = true) :
    r.value_ret = sumValues r.out_set ∧
    (KnapsackSolver pool tk rng).value_ret =
      sumValues (KnapsackSolver pool tk rng).out_set := by
  have hpoolnd : pool.Nodup := nodup_of_pairwise_outpoint pool hdist
  constructor
  · unfold SelectCoinsBnB at h
    split at h
    · injection h with h
      subst h
      simp at hs
    · split at h
      · exact absurd h (by simp)
      · exact absurd h (by simp)
      next s hloop =>
        split at h
        · injection h with h
          subst h
          simp at hs
        next hbest =>
          split at h
          · exact absurd h (by simp)
          next out v fr hout =>
            injection h with h
            subst h
            have hnd : (selectedCoins s.best_selection (sortDescending pool)).Nodup :=
              (selectedCoins_sublist s.best_selection (sortDescending pool)).nodup
                (nodup_sortDescending pool hpoolnd)
            have hoeq := bnbOutput_out s.best_selection (sortDescending pool) [] 0 f out v fr
              hout hnd (by intro x _; simp)
            have hsums := bnbOutput_sums s.best_selection (sortDescending pool) [] 0 f out v fr
              hout
            show v = sumValues out
            rw [hoeq, List.nil_append, sumValues_selectedCoins]
            have hv := hsums.1
            omega
  · cases hscan : knapScan tk pool [] 0 none with
    | inl coin =>
      have hK := KnapsackSolver_inl pool tk rng coin hscan
      rw [hK]
      show coin.nValue = sumValues (setInsert [] coin)
      rw [sumValues_setInsert_nil]
    | inr trip =>
      obtain ⟨vValue, nTotalLower, cll⟩ := trip
      obtain ⟨⟨sel, hsel, hvv, hn⟩, hsome, hnone⟩ :=
        (knapScan_spec tk pool [] 0 none (fun x hx => absurd hx (by simp))).2
          vValue nTotalLower cll hscan
      simp only [List.nil_append] at hvv
      subst hvv
      have hvnd : vValue.Nodup := hsel.nodup hpoolnd
      have hK := KnapsackSolver_inr pool tk rng vValue nTotalLower cll hscan
      rw [hK]
      by_cases heq : nTotalLower = tk
      · rw [if_pos heq]
        show (insertAll vValue [] 0).2 = sumValues (insertAll vValue [] 0).1
        rw [insertAll_out vValue [] 0 hvnd (by intro x hx; simp), insertAll_sum]
        rw [List.nil_append]
        omega
      · rw [if_neg heq]
        by_cases hlt : nTotalLower < tk
        · rw [if_pos hlt]
          cases cll with
          | none =>
            rw [hK, if_neg heq, if_pos hlt] at hks
            simp [Option.elim] at hks
          | some cl =>
            simp only [Option.elim]
            show cl.nValue = sumValues (setInsert [] cl)
            rw [sumValues_setInsert_nil]
        · rw [if_neg hlt]
          have hsnd : (sortDescending vValue).Nodup := nodup_sortDescending vValue hvnd
          cases cll with
          | none =>
            simp only [Option.elim]
            exact insertMasked_nil_balanced (sortDescending vValue)
              (knapApprox vValue nTotalLower tk rng).1 hsnd
          | some cl =>
            simp only [Option.elim]
            by_cases hg : ((knapApprox vValue nTotalLower tk rng).2.1 ≠ tk ∧
                (knapApprox vValue nTotalLower tk rng).2.1 < tk + MIN_CHANGE) ∨
                cl.nValue ≤ (knapApprox vValue nTotalLower tk rng).2.1
            · rw [if_pos hg]
              show cl.nValue = sumValues (setInsert [] cl)
              rw [sumValues_setInsert_nil]
            · rw [if_neg hg]
              exact insertMasked_nil_balanced (sortDescending vValue)
                (knapApprox vValue nTotalLower tk rng).1 hsnd

/-- Witness for the amended gross-reporting theorem on a duplicate-free
pool: the tiePool BnB run returns value_ret four with out_set summing to
four, and the knapsack run at target nine returns value_ret nine with
out_set summing to nine. -/
theorem value_ret_matches_out_set_witness :
    (⟨true, [⟨4, 1, 0, 1⟩], 4, 1⟩ : BnBResult).value_ret =
      sumValues ((⟨true, [⟨4, 1, 0, 1⟩], 4, 1⟩ : BnBResult).out_set) ∧
    (KnapsackSolver tiePool 9 (fun _ => false)).value_ret =
      sumValues (KnapsackSolver tiePool 9 (fun _ => false)).out_set :=
  value_ret_matches_out_set tiePool 3 2 0 9 (fun _ => false) ⟨true, [⟨4, 1, 0, 1⟩], 4, 1⟩
    (by decide) rfl rfl (by decide)

/-- Witness for the knapsack coverage theorem on a one-coin pool hitting
the exact-match branch: value five, target five. -/
theorem knapsack_success_iff_coverage_witness :
    ((KnapsackSolver [⟨5, 0, 0, 0⟩] 5 (fun _ => false)).success = true ↔
      ∃ s : List CInputCoin, s.Sublist [⟨5, 0, 0, 0⟩] ∧ 5 ≤ sumValues s) ∧
    ((KnapsackSolver [⟨5, 0, 0, 0⟩] 5 (fun _ => false)).success = true →
      5 ≤ (KnapsackSolver [⟨5, 0, 0, 0⟩] 5 (fun _ => false)).value_ret) :=
  knapsack_success_iff_coverage [⟨5, 0, 0, 0⟩] 5 (fun _ => false) (by decide)
